import Mathlib

/-!
Verification of the ubuntu-manpages-operator ingest pipeline.

Go strings are modelled as `List Char`; each Go function used by the
claims is translated into a computable Lean definition, and the claimed
properties are proved about those definitions.
-/

set_option maxHeartbeats 1000000

abbrev Str := List Char

namespace GoStr

/-- strings.HasSuffix. -/
def hasSuffix (s suf : Str) : Bool := suf.isSuffixOf s

/-- strings.HasPrefix. -/
def hasPre (s p : Str) : Bool := p.isPrefixOf s

/-- strings.TrimSuffix: drop `suf` from the end of `s` when present. -/
def trimSuffix (s suf : Str) : Str :=
  if suf.isSuffixOf s then s.take (s.length - suf.length) else s

/-- strings.TrimPrefix: drop `p` from the front of `s` when present. -/
def trimPre (s p : Str) : Str :=
  if p.isPrefixOf s then s.drop p.length else s

/-- Split on a separator char; mirrors strings.Split with a 1-char separator. -/
def splitOnChar (sep : Char) : Str → List Str
  | [] => [[]]
  | c :: rest =>
    if c = sep then [] :: splitOnChar sep rest
    else
      match splitOnChar sep rest with
      | [] => [[c]]
      | s :: ss => (c :: s) :: ss

/-- First index at which `pat` occurs in `s` (strings.Index). -/
def indexOfSub (s pat : Str) : Option Nat :=
  if pat.isPrefixOf s then some 0
  else
    match s with
    | [] => none
    | _ :: rest => (indexOfSub rest pat).map (· + 1)

/-- strings.Cut: split around the first occurrence of `sep`. -/
def cut (s sep : Str) : Str × Str × Bool :=
  match indexOfSub s sep with
  | some i => (s.take i, s.drop (i + sep.length), true)
  | none => (s, [], false)

/-- Whitespace in the sense of unicode.IsSpace restricted to the chars the
pipeline meets; mirrors what strings.TrimSpace and strings.Fields use. -/
def isSpace (c : Char) : Bool :=
  c = ' ' ∨ c = '\t' ∨ c = '\n' ∨ c = '\r' ∨ c = '\x0b' ∨ c = '\x0c'

/-- strings.TrimSpace. -/
def trimSpace (s : Str) : Str :=
  ((s.dropWhile isSpace).reverse.dropWhile isSpace).reverse

/-- Split at every char satisfying `p` (keeping empty pieces). -/
def splitOnPred (p : Char → Bool) : Str → List Str
  | [] => [[]]
  | c :: rest =>
    if p c then [] :: splitOnPred p rest
    else
      match splitOnPred p rest with
      | [] => [[c]]
      | s :: ss => (c :: s) :: ss

/-- strings.Fields: whitespace-separated tokens, empties removed. -/
def fields (s : Str) : List Str :=
  (splitOnPred isSpace s).filter (fun t => t ≠ [])

/-- strconv.Atoi restricted to what the path resolver needs: an optional
sign followed by one or more digits, nothing else. -/
def atoi (s : Str) : Option Int :=
  let (neg, digits) :=
    match s with
    | '-' :: rest => (true, rest)
    | '+' :: rest => (false, rest)
    | _ => (false, s)
  if digits = [] ∨ ¬ digits.all Char.isDigit then none
  else
    let n : Nat := digits.foldl (fun acc c => acc * 10 + (c.toNat - '0'.toNat)) 0
    some (if neg then -(n : Int) else (n : Int))

end GoStr

namespace Paths

open GoStr

/-!  internal/pipeline/paths.go, plus the Go standard library helpers
(path.Clean, path.Join) it calls. -/

/-- One step of the element loop in Go path.Clean: `acc` is the stack of
output segments in reverse order.  `..` pops a non-`..` top; with an empty
stack it is dropped when rooted and pushed when not (the lazybuf `dotdot`
barrier in the Go source is equivalent to checking the top of the stack,
because pushed `..` segments always form the bottom of the stack). -/
def cleanSegsAux (rooted : Bool) (acc : List Str) : List Str → List Str
  | [] => acc
  | seg :: rest =>
    if seg = [] ∨ seg = ['.'] then cleanSegsAux rooted acc rest
    else if seg = ['.', '.'] then
      if rooted then
        match acc with
        | _ :: acc2 => cleanSegsAux rooted acc2 rest
        | [] => cleanSegsAux rooted [] rest
      else
        match acc with
        | top :: acc2 =>
          if top = ['.', '.'] then cleanSegsAux rooted (seg :: acc) rest
          else cleanSegsAux rooted acc2 rest
        | [] => cleanSegsAux rooted [seg] rest
    else cleanSegsAux rooted (seg :: acc) rest

/-- Join path segments with slashes (the contents of the Go lazybuf). -/
def joinSlash : List Str → Str
  | [] => []
  | [x] => x
  | x :: xs => x ++ '/' :: joinSlash xs

/-- Final assembly of Go path.Clean: prepend the root slash when rooted,
return "." when nothing is left. -/
def render (rooted : Bool) (out : List Str) : Str :=
  if rooted then '/' :: joinSlash out
  else if out = [] then ['.']
  else joinSlash out

/-- Go path.Clean. -/
def clean (p : Str) : Str :=
  if p = [] then ['.']
  else
    render (decide (p.head? = some '/'))
      ((cleanSegsAux (decide (p.head? = some '/')) [] (splitOnChar '/' p)).reverse)

/-- A path segment that Clean passes through unchanged: non-empty, not a
dot element, and free of separators. -/
def goodSeg (s : Str) : Prop :=
  s ≠ [] ∧ s ≠ ['.'] ∧ s ≠ ['.', '.'] ∧ '/' ∉ s

/-- Shape of the segment list produced by Clean: a run of ".." segments
(only when not rooted) followed by ordinary segments. -/
def OutOK (rooted : Bool) (out : List Str) : Prop :=
  ∃ d g, out = List.replicate d ['.', '.'] ++ g ∧ (∀ s ∈ g, goodSeg s) ∧
    (rooted = true → d = 0)

/-- The same shape for the working stack inside cleanSegsAux (the stack is
the reversed output, so the ".." run sits at its bottom). -/
def StackOK (rooted : Bool) (acc : List Str) : Prop :=
  ∃ g d, acc = g ++ List.replicate d ['.', '.'] ∧ (∀ s ∈ g, goodSeg s) ∧
    (rooted = true → d = 0)

/-- Go path.Join: concatenate the non-empty elements with slashes and Clean
the result; empty when every element is empty. -/
def goJoin (elems : List Str) : Str :=
  let buf := elems.foldl
    (fun buf e =>
      if buf ≠ [] ∨ e ≠ [] then
        (if buf ≠ [] then buf ++ '/' :: e else buf ++ e)
      else buf) []
  if buf = [] then [] else clean buf

/-- normalizeHTMLExt from paths.go: strip a trailing ".gz" and ensure a
trailing ".html". -/
def normalizeHTMLExt (p : Str) : Str :=
  let p := trimSuffix p (".gz".toList)
  if hasSuffix p (".html".toList) then p else p ++ ".html".toList

/-- ConvertSymlinkTarget from paths.go (filepath.ToSlash is the identity on
the slash-separated paths this system handles). -/
def convertSymlinkTarget (target : Str) : Str :=
  normalizeHTMLExt (clean target)

/-- ConvertSoTarget from paths.go. -/
def convertSoTarget (target : Str) : Str :=
  let t := trimSpace target
  let t := trimPre t ("/".toList)
  let t := clean (goJoin ["..".toList, t])
  normalizeHTMLExt t

/-- parseSectionFromFilename from paths.go. -/
def parseSectionFromFilename (name : Str) : Int :=
  let name := trimSuffix name (".gz".toList)
  match indexOfSub name.reverse ['.'] with
  | none => 0
  | some revIdx =>
    let idx := name.length - 1 - revIdx
    if idx = name.length - 1 then 0
    else
      let sectionStr := name.drop (idx + 1)
      let sectionStr := sectionStr.dropWhile (fun c => c = 'm' ∨ c = 'a' ∨ c = 'n')
      if sectionStr = [] then 0
      else
        match atoi (sectionStr.take 1) with
        | none => 0
        | some n => n

/-- parseSection from paths.go. -/
def parseSection (manRel : Str) : Int :=
  let parts := splitOnChar '/' manRel
  match parts with
  | [] => 0
  | first :: _ =>
    let sectionDir := trimPre first ("man".toList)
    match atoi sectionDir with
    | some n => n
    | none => parseSectionFromFilename (parts.getLastD [])

structure ManpagePaths where
  htmlPath : Str
  gzipPath : Str
  sec : Int
  language : Str
deriving DecidableEq, Repr

/-- ParseManpagePath from paths.go; `none` models the "missing /man/
segment" error. -/
def parseManpagePath (release relativePath : Str) : Option ManpagePaths :=
  match indexOfSub relativePath ("/man/".toList) with
  | none => none
  | some idx =>
    let manRel := trimPre (relativePath.drop (idx + 5)) ("/".toList)
    let manRel := clean manRel
    let manRel := trimPre manRel ("../".toList)
    let lang :=
      match cut manRel ("/".toList) with
      | (first, _, true) =>
        if first.length < 4 ∨ first.take 3 ≠ "man".toList
            ∨ ¬ ('0' ≤ first.get! 3 ∧ first.get! 3 ≤ '9') then first
        else []
      | (_, _, false) => []
    let base := trimSuffix manRel (".gz".toList)
    let sec :=
      if lang ≠ [] then parseSection (trimPre base (lang ++ ['/']))
      else parseSection base
    some {
      htmlPath := goJoin ["manpages".toList, release, base] ++ ".html".toList
      gzipPath := goJoin ["manpages.gz".toList, release, base] ++ ".gz".toList
      sec := sec
      language := lang }

end Paths

namespace Fetcher

open GoStr

/-!  internal/fetcher/fetcher.go. -/

structure Package where
  name : Str
  version : Str
  filename : Str
  sha1 : Str
deriving DecidableEq, Repr

/-- The four retained fields of the stanza currently being parsed; an empty
value models an absent key, exactly as the Go map does. -/
structure StanzaFields where
  pkg : Str
  version : Str
  filename : Str
  sha1 : Str
deriving DecidableEq, Repr

def emptyFields : StanzaFields := ⟨[], [], [], []⟩

/-- The flush closure in parsePackages: drop the stanza when Package,
Filename or SHA1 is empty, otherwise emit one candidate. -/
def flushStanza (f : StanzaFields) (results : List Package) : List Package :=
  if f.pkg = [] ∨ f.filename = [] ∨ f.sha1 = [] then results
  else results ++ [⟨f.pkg, f.version, f.filename, f.sha1⟩]

/-- The switch over retained keys in parsePackages. -/
def setField (f : StanzaFields) (key value : Str) : StanzaFields :=
  if key = "Package".toList then { f with pkg := value }
  else if key = "Version".toList then { f with version := value }
  else if key = "Filename".toList then { f with filename := value }
  else if key = "SHA1".toList then { f with sha1 := value }
  else f

/-- One non-blank line of a stanza: strings.SplitN(line, ": ", 2); lines
without the separator are skipped. -/
def parseLine (f : StanzaFields) (line : Str) : StanzaFields :=
  match cut line (": ".toList) with
  | (key, value, true) => setField f key value
  | (_, _, false) => f

/-- The scanner loop of parsePackages over the decompressed index, as a
fold over its lines. -/
def parsePackagesAux : List Str → StanzaFields → List Package → List Package
  | [], f, results => flushStanza f results
  | line :: rest, f, results =>
    if line = [] then parsePackagesAux rest emptyFields (flushStanza f results)
    else parsePackagesAux rest (parseLine f line) results

/-- parsePackages from fetcher.go, on the line list of the input stream. -/
def parsePackages (lines : List Str) : List Package :=
  parsePackagesAux lines emptyFields []

/-- Blank-line-separated stanzas of the line list (specification-level
companion of the scanner loop, used to characterize parsePackages). -/
def stanzasOf : List Str → List (List Str)
  | [] => [[]]
  | l :: rest =>
    if l = [] then [] :: stanzasOf rest
    else
      match stanzasOf rest with
      | [] => [[l]]
      | st :: ss => (l :: st) :: ss

/-- The candidate one stanza contributes, starting from fields `f`. -/
def stanzaCandidateFrom (f : StanzaFields) (st : List Str) : Option Package :=
  let f := st.foldl parseLine f
  if f.pkg = [] ∨ f.filename = [] ∨ f.sha1 = [] then none
  else some ⟨f.pkg, f.version, f.filename, f.sha1⟩

def stanzaCandidate (st : List Str) : Option Package :=
  stanzaCandidateFrom emptyFields st

/-- Modelled from the spec: Debian version ordering (the repository calls
pault.ag/go/debian/version, which implements the dpkg comparison
algorithm; that library is not part of this repository).  A version is
epoch:upstream-revision; an empty string, an embedded space, a non-numeric
epoch, or a version that is empty after the colon does not parse. -/
structure DebVersion where
  epoch : Nat
  upstream : Str
  revision : Str
deriving DecidableEq, Repr

/-- Modelled from the spec: parsing of a Debian version string. -/
def parseDebVersion (s : Str) : Option DebVersion :=
  if s = [] then none
  else if s.any (fun c => c = ' ' ∨ c = '\t') then none
  else
    let (epoch, rest) :=
      match indexOfSub s [':'] with
      | some i => (s.take i, some (s.drop (i + 1)))
      | none => ([], none)
    match rest with
    | some r =>
      if epoch = [] ∨ ¬ epoch.all Char.isDigit then none
      else if r = [] then none
      else
        let e := epoch.foldl (fun acc c => acc * 10 + (c.toNat - '0'.toNat)) 0
        match indexOfSub r.reverse ['-'] with
        | some revIdx =>
          let i := r.length - 1 - revIdx
          some ⟨e, r.take i, r.drop (i + 1)⟩
        | none => some ⟨e, r, []⟩
    | none =>
      match indexOfSub s.reverse ['-'] with
      | some revIdx =>
        let i := s.length - 1 - revIdx
        some ⟨0, s.take i, s.drop (i + 1)⟩
      | none => some ⟨0, s, []⟩

/-- Modelled from the spec: the dpkg character order.  ~ sorts before the
end of the string (encoded 0), letters by code point, and every other
character after all letters. -/
def charOrder (c : Char) : Int :=
  if c = '~' then -1
  else if c.isAlpha then (c.toNat : Int)
  else (c.toNat : Int) + 256

/-- Split a version component into its alternating non-digit / digit runs,
pairing each non-digit run with the numeric value of the digit run that
follows it.  The fuel argument is bounded by the string length; every
step consumes at least one character, so the fuel never runs out. -/
def verChunksAux : Nat → Str → List (Str × Nat)
  | 0, _ => []
  | _ + 1, [] => []
  | fuel + 1, c :: rest =>
    let a := (c :: rest).takeWhile (fun ch => ! ch.isDigit)
    let r1 := (c :: rest).dropWhile (fun ch => ! ch.isDigit)
    let dr := r1.takeWhile Char.isDigit
    let r2 := r1.dropWhile Char.isDigit
    (a, dr.foldl (fun acc ch => acc * 10 + (ch.toNat - '0'.toNat)) 0) :: verChunksAux fuel r2

def verChunks (s : Str) : List (Str × Nat) := verChunksAux s.length s

/-- One chunk of the comparison key: the char orders of the non-digit run,
0-terminated, then the numeric value; ordered lexicographically. -/
abbrev VChunk := Lex (List Int × Nat)

def chunkKey (c : Str × Nat) : VChunk := toLex (c.1.map charOrder ++ [0], c.2)

def padChunk : VChunk := toLex (([0] : List Int), 0)

/-- A chunk that compares exactly like the end of the string. -/
def vacuous (c : Str × Nat) : Bool := c.1 = [] ∧ c.2 = 0

/-- Modelled from the spec: the comparison key of one version component.
Trailing runs of zero digits compare equal to the end of the string and
are dropped; two pad chunks make the lexicographic list order agree with
the end-of-string padding the dpkg algorithm uses. -/
def componentKey (s : Str) : List VChunk :=
  (((verChunks s).reverse.dropWhile vacuous).reverse.map chunkKey) ++ [padChunk, padChunk]

/-- Modelled from the spec: the full comparison key of a version; Debian
ordering is epoch, then upstream, then revision. -/
def debKey (v : DebVersion) : Lex (Nat × Lex (List VChunk × List VChunk)) :=
  toLex (v.epoch, toLex (componentKey v.upstream, componentKey v.revision))

/-- versionGreater from fetcher.go: an empty incumbent always loses; a
parse failure on either side makes the candidate lose. -/
def versionGreater (left right : Str) : Bool :=
  if right = [] then true
  else
    match parseDebVersion left with
    | none => false
    | some l =>
      match parseDebVersion right with
      | none => false
      | some r => debKey r < debKey l

/-- Association-list view of the name-indexed map of FetchPackages. -/
def lookupPkg : List (Str × Package) → Str → Option Package
  | [], _ => none
  | (k, v) :: rest, n => if k = n then some v else lookupPkg rest n

def updatePkg : List (Str × Package) → Str → Package → List (Str × Package)
  | [], _, _ => []
  | (k, v) :: rest, n, c => if k = n then (k, c) :: rest else (k, v) :: updatePkg rest n c

/-- One step of the merge loop of FetchPackages: insert when the name is
new, replace only when the candidate version is strictly greater. -/
def mergeStep (m : List (Str × Package)) (c : Package) : List (Str × Package) :=
  match lookupPkg m c.name with
  | none => m ++ [(c.name, c)]
  | some current =>
    if versionGreater c.version current.version then updatePkg m c.name c else m

/-- The merge of FetchPackages over the candidates of all grid cells,
concatenated in pocket-priority order. -/
def mergeCandidates (candidates : List Package) : List (Str × Package) :=
  candidates.foldl mergeStep []

/-- Comparison predicate used to state maximality: both versions parse and
the left key is at most the right key. -/
def debVersionLE (a b : Str) : Bool :=
  match parseDebVersion a, parseDebVersion b with
  | some va, some vb => debKey va ≤ debKey vb
  | _, _ => false

/-- Invariant of the merge loop: every map entry is a processed candidate
with a maximal version among the processed candidates of its name, and
every processed name has an entry. -/
def MergeInv (processed : List Package) (m : List (Str × Package)) : Prop :=
  (∀ n q, lookupPkg m n = some q → q ∈ processed ∧ q.name = n ∧
    ∀ c ∈ processed, c.name = n → debVersionLE c.version q.version = true) ∧
  (∀ c ∈ processed, lookupPkg m c.name ≠ none)

end Fetcher

namespace Fetcher

/-- Outcome of one download attempt inside FetchDeb: the HTTP client
either fails in transport or returns a response with a status code. -/
inductive AttemptOutcome where
  | transportError
  | httpStatus (code : Nat)
deriving DecidableEq, Repr

inductive FetchDebError where
  | transport
  | status (code : Nat)
deriving DecidableEq, Repr

/-- The error produced by the per-attempt closure of FetchDeb: transport
errors fail, a status outside 2xx fails, a 2xx response succeeds (the
temp-file write and rename, which the claim does not concern, are modelled
as succeeding). -/
def attemptError : AttemptOutcome → Option FetchDebError
  | .transportError => some .transport
  | .httpStatus code => if 200 ≤ code ∧ code < 300 then none else some (.status code)

inductive FetchDebResult where
  | ok
  | ctxCancelled
  | failed (e : FetchDebError)
deriving DecidableEq, Repr

structure FetchDebRun where
  attemptsMade : Nat
  sleeps : List Nat
  result : FetchDebResult
deriving DecidableEq, Repr

/-- The retry loop of FetchDeb (fetcher.go): three total attempts indexed
0..2; before attempt i ≥ 1 the loop waits i seconds on a cancellable
select (cancelWait i is true when the context fires during that wait,
returning ctx.Err()); after a failed attempt the loop returns the last
error when ctx.Err() is non-nil (cancelAfter i) and otherwise retries.
Every failed attempt is retried the same way, whatever its error. -/
def fetchDebAux (outcome : Nat → AttemptOutcome) (cancelWait cancelAfter : Nat → Bool) :
    Nat → Nat → List Nat → Option FetchDebError → FetchDebRun
  | 0, attempt, sleeps, lastErr =>
    ⟨attempt, sleeps, .failed (lastErr.getD .transport)⟩
  | fuel + 1, attempt, sleeps, _ =>
    if 0 < attempt ∧ cancelWait attempt then ⟨attempt, sleeps, .ctxCancelled⟩
    else
      let sleeps2 := if 0 < attempt then sleeps ++ [attempt] else sleeps
      match attemptError (outcome attempt) with
      | none => ⟨attempt + 1, sleeps2, .ok⟩
      | some e =>
        if cancelAfter attempt then ⟨attempt + 1, sleeps2, .failed e⟩
        else fetchDebAux outcome cancelWait cancelAfter fuel (attempt + 1) sleeps2 (some e)

/-- FetchDeb with its three-attempt budget. -/
def fetchDeb (outcome : Nat → AttemptOutcome) (cancelWait cancelAfter : Nat → Bool) :
    FetchDebRun :=
  fetchDebAux outcome cancelWait cancelAfter 3 0 [] none

end Fetcher

namespace Search

open GoStr

/-!  The SQLite searcher (sanitizeQuery). -/

/-- The character class the sanitizer keeps: [A-Za-z0-9 _.-]. -/
def allowedChar (c : Char) : Bool :=
  ('a' ≤ c ∧ c ≤ 'z') ∨ ('A' ≤ c ∧ c ≤ 'Z') ∨ ('0' ≤ c ∧ c ≤ '9') ∨
    c = ' ' ∨ c = '-' ∨ c = '_' ∨ c = '.'

/-- strings.ToUpper restricted to ASCII; the tokens reaching it contain
only characters of the allowed class, which is ASCII. -/
def upperChar (c : Char) : Char :=
  if 'a' ≤ c ∧ c ≤ 'z' then Char.ofNat (c.toNat - 32) else c

def isReserved (t : Str) : Bool :=
  t.map upperChar = "AND".toList ∨ t.map upperChar = "OR".toList ∨
    t.map upperChar = "NOT".toList

/-- The token list built by the sanitizer loop: tokens of the trimmed,
space-replaced input, the SQL-reserved terms blanked out, the remaining
tokens wrapped as "token"*, blanks filtered away. -/
def sanitizedTerms (q : Str) : List Str :=
  ((fields (trimSpace ((trimSpace q).map (fun c => if allowedChar c then c else ' ')))).map
    (fun t => if isReserved t then [] else '"' :: (t ++ ['"', '*']))).filter
    (fun t => t ≠ [])

/-- sanitizeQuery from the SQLite searcher: trim, replace disallowed
characters by spaces, trim again, blank out the SQL-reserved terms, wrap
every remaining token as "token"*, and join with single spaces. -/
def sanitizeQuery (q : Str) : Str :=
  if trimSpace q = [] then []
  else if trimSpace ((trimSpace q).map (fun c => if allowedChar c then c else ' ')) = [] then []
  else if sanitizedTerms q = [] then []
  else List.intercalate [' '] (sanitizedTerms q)

/-- The claimed behaviour stated compositionally over the raw input:
tokens of the space-replaced input, reserved terms dropped, each token
wrapped as "token"*. -/
def sanitizeSpecForm (q : Str) : Str :=
  List.intercalate [' ']
    (((fields (q.map (fun c => if allowedChar c then c else ' '))).filter
        (fun t => isReserved t = false)).map (fun t => '"' :: (t ++ ['"', '*'])))

def lowerChar (c : Char) : Char :=
  if 'A' ≤ c ∧ c ≤ 'Z' then Char.ofNat (c.toNat + 32) else c

/-- Modelled from the spec: the sanitizer as the claim describes it, which
lowercases the input before tokenizing. -/
def claimSanitizeQuery (q : Str) : Str :=
  sanitizeSpecForm (q.map lowerChar)

end Search

deriving instance DecidableEq for Except

namespace Runner

open GoStr

/-!  The pipeline runner (processPackage / processManpage /
ProcessSingleManpage from the runner source).  External effects are
oracle inputs: the converter outcome and the .so detection are fields of
the manpage model, and storage writes are recorded as events.  Storage,
transform and indexer operations that the claims do not concern are
modelled as succeeding. -/

/-- One manpage inside an extracted package, together with the oracle
outcomes of the effectful steps taken on it. -/
structure ManpageFile where
  relativePath : Str
  isSymlink : Bool
  symlinkTarget : Str
  soTarget : Option Str
  convertResult : Except Unit Str
deriving DecidableEq, Repr

inductive StorageEvent where
  | writeHTML (path : Str)
  | writeGzip (path : Str)
  | writeSymlink (path target : Str)
  | writeGzipSymlink (path target : Str)
  | indexed (path : Str)
  | cacheWrite (release name sha1 : Str)
deriving DecidableEq, Repr

inductive MpError where
  | convertError
  | fatal
deriving DecidableEq, Repr

/-- ProcessSingleManpage: parse the canonical paths, then write symlinks
for symlink and .so sources, otherwise convert (a failure is a
ConvertError, produced before anything is written), transform, write the
fragment, index, and write the gzipped source. -/
def processSingleManpage (release : Str) (hasIndexer : Bool) (mp : ManpageFile) :
    Except MpError (List StorageEvent) :=
  match Paths.parseManpagePath release mp.relativePath with
  | none => .error .fatal
  | some paths =>
    if mp.isSymlink then
      .ok [.writeSymlink paths.htmlPath (Paths.convertSymlinkTarget mp.symlinkTarget),
        .writeGzipSymlink paths.gzipPath mp.symlinkTarget]
    else
      match mp.soTarget with
      | some target => .ok [.writeSymlink paths.htmlPath (Paths.convertSoTarget target)]
      | none =>
        match mp.convertResult with
        | .error _ => .error .convertError
        | .ok _ =>
          .ok ([.writeHTML paths.htmlPath] ++
            (if hasIndexer then [.indexed paths.htmlPath] else []) ++
            [.writeGzip paths.gzipPath])

/-- The manpage loop of processPackage, threading processManpage: a
ConvertError is recorded as a failure and the loop continues; any other
error aborts the loop. -/
def processManpagesAux (release : Str) (hasIndexer : Bool) :
    List ManpageFile → List StorageEvent → List Str →
      (List StorageEvent × List Str × Bool)
  | [], evs, fails => (evs, fails, false)
  | mp :: rest, evs, fails =>
    match processSingleManpage release hasIndexer mp with
    | .ok mpEvs => processManpagesAux release hasIndexer rest (evs ++ mpEvs) fails
    | .error .convertError =>
      processManpagesAux release hasIndexer rest evs (fails ++ [mp.relativePath])
    | .error .fatal => (evs, fails, true)

structure PackageRun where
  events : List StorageEvent
  failures : List Str
  skipped : Bool
  failed : Bool
deriving DecidableEq, Repr

/-- processPackage: skip on cache hit, fetch and extract (oracle
outcomes), run the manpage loop, and write the cache entry when the loop
finished without a fatal error and the package has a name and a SHA1. -/
def processPackage (release pkgName pkgSha1 : Str)
    (forceProcess cached fetchOk extractOk hasIndexer : Bool)
    (mps : List ManpageFile) : PackageRun :=
  if ¬ forceProcess ∧ pkgName ≠ [] ∧ pkgSha1 ≠ [] ∧ cached then ⟨[], [], true, false⟩
  else if ¬ fetchOk then ⟨[], [], false, true⟩
  else if ¬ extractOk then ⟨[], [], false, true⟩
  else
    match processManpagesAux release hasIndexer mps [] [] with
    | (evs, fails, true) => ⟨evs, fails, false, true⟩
    | (evs, fails, false) =>
      if pkgName ≠ [] ∧ pkgSha1 ≠ [] then
        ⟨evs ++ [.cacheWrite release pkgName pkgSha1], fails, false, false⟩
      else ⟨evs, fails, false, false⟩

/-- The events a manpage contributes when it is processed without error. -/
def mpEvents (release : Str) (hasIndexer : Bool) (mp : ManpageFile) : List StorageEvent :=
  match processSingleManpage release hasIndexer mp with
  | .ok evs => evs
  | .error _ => []

/-- Whether a manpage fails with a ConvertError. -/
def mpConvertFails (release : Str) (hasIndexer : Bool) (mp : ManpageFile) : Bool :=
  match processSingleManpage release hasIndexer mp with
  | .error .convertError => true
  | _ => false

end Runner

namespace Sitemap

open GoStr

/-!  internal/sitemap/sitemap.go: Generate, with the file system as an
oracle.  Each directory entry carries the outcome of generateSection for
it; sitemap-file writes are modelled as succeeding. -/

structure DirEntry where
  name : Str
  isDir : Bool
  sectionRefs : Except Unit (List Str)
deriving DecidableEq, Repr

inductive ReadDirResult where
  | notExist
  | ioError
  | ok (entries : List DirEntry)
deriving DecidableEq, Repr

structure SitemapRun where
  indexWritten : Bool
  indexRefs : List Str
  logged : List (Str × Str)
  aborted : Bool
deriving DecidableEq, Repr

/-- The per-release entry loop of Generate: a failing section is logged
and skipped, a succeeding one contributes its refs. -/
def generateEntries (release : Str) :
    List DirEntry → List Str → List (Str × Str) → (List Str × List (Str × Str))
  | [], refs, logged => (refs, logged)
  | e :: rest, refs, logged =>
    if ¬ e.isDir then generateEntries release rest refs logged
    else
      match e.sectionRefs with
      | .error _ => generateEntries release rest refs (logged ++ [(release, e.name)])
      | .ok r => generateEntries release rest (refs ++ r) logged

/-- The release loop of Generate: a missing release directory is skipped,
any other read error aborts the whole generation (the index is not
written); otherwise the sections are processed and the index is written
at the end. -/
def generateReleases (readDir : Str → ReadDirResult) :
    List Str → List Str → List (Str × Str) → SitemapRun
  | [], refs, logged => ⟨true, refs, logged, false⟩
  | release :: rest, refs, logged =>
    match readDir release with
    | .notExist => generateReleases readDir rest refs logged
    | .ioError => ⟨false, refs, logged, true⟩
    | .ok entries =>
      match generateEntries release entries refs logged with
      | (refs2, logged2) => generateReleases readDir rest refs2 logged2

/-- Generate from sitemap.go: the static sitemap is written first and
referenced, then the releases are walked, then the index is written. -/
def generate (releases : List Str) (readDir : Str → ReadDirResult) : SitemapRun :=
  generateReleases readDir releases ["sitemap-static.xml".toList] []

/-- The refs one directory entry contributes. -/
def entryRefs (e : DirEntry) : List Str :=
  if ¬ e.isDir then []
  else match e.sectionRefs with
    | .error _ => []
    | .ok r => r

/-- The log lines one directory entry contributes. -/
def entryLogs (release : Str) (e : DirEntry) : List (Str × Str) :=
  if ¬ e.isDir then []
  else match e.sectionRefs with
    | .error _ => [(release, e.name)]
    | .ok _ => []

/-- The refs one release contributes to the sitemap index. -/
def releaseRefs (readDir : Str → ReadDirResult) (release : Str) : List Str :=
  match readDir release with
  | .notExist => []
  | .ioError => []
  | .ok entries => entries.flatMap entryRefs

/-- The log lines one release contributes. -/
def releaseLogs (readDir : Str → ReadDirResult) (release : Str) : List (Str × Str) :=
  match readDir release with
  | .notExist => []
  | .ioError => []
  | .ok entries => entries.flatMap (entryLogs release)

end Sitemap

namespace Transform

open GoStr

/-!  internal/transform/toc.go: bGenerateTOC and its regex helpers.  The
three regexes are compiled into explicit scanners with Go regexp's
leftmost-first semantics.  html.UnescapeString (the full HTML5 entity
table, outside this repository) is a parameter of the embedding;
html.EscapeString is the five-entity replacement it is documented to be.
strings.ToLower is modelled on the ASCII range. -/

/-- The whitespace class of Go regexp. -/
def regexSpace (c : Char) : Bool :=
  c = '\t' ∨ c = '\n' ∨ c = '\x0c' ∨ c = '\r' ∨ c = ' '

/-- html.EscapeString. -/
def htmlEscape : Str → Str
  | [] => []
  | c :: rest =>
    (if c = '&' then ("&amp;".toList)
     else if c = '\'' then ("&#39;".toList)
     else if c = '<' then ("&lt;".toList)
     else if c = '>' then ("&gt;".toList)
     else if c = '"' then ("&#34;".toList)
     else [c]) ++ htmlEscape rest

/-- One leftmost-first pass of manpageStripTags with ReplaceAll "":
remove every occurrence of a tag, i.e. a non-empty run of non-gt
characters between angle brackets. -/
def stripTagsAux : Nat → Str → Str
  | 0, s => s
  | _ + 1, [] => []
  | fuel + 1, c :: rest =>
    if c = '<' then
      match rest.dropWhile (fun d => d ≠ '>') with
      | '>' :: rest2 =>
        if rest.takeWhile (fun d => d ≠ '>') = [] then c :: stripTagsAux fuel rest
        else stripTagsAux fuel rest2
      | _ => c :: stripTagsAux fuel rest
    else c :: stripTagsAux fuel rest

def stripTags (s : Str) : Str := stripTagsAux s.length s

/-- strings.Join with a single-space separator. -/
def joinSpace : List Str → Str
  | [] => []
  | [t] => t
  | t :: rest => t ++ ' ' :: joinSpace rest

/-- collapseWhitespace from toc.go. -/
def collapseWhitespace (s : Str) : Str := joinSpace (fields s)

/-- The regex of one-or-more non-alphanumeric characters with
ReplaceAll "-": collapse each such run into a single dash.  The flag
records whether the previous character belonged to a run. -/
def slugDashAux : Bool → Str → Str
  | _, [] => []
  | inRun, c :: rest =>
    if ('a' ≤ c ∧ c ≤ 'z') ∨ ('0' ≤ c ∧ c ≤ '9') then c :: slugDashAux false rest
    else if inRun then slugDashAux true rest
    else '-' :: slugDashAux true rest

/-- strings.Trim(s, "-"). -/
def trimDash (s : Str) : Str :=
  ((s.dropWhile (fun c => c = '-')).reverse.dropWhile (fun c => c = '-')).reverse

/-- slugify from toc.go. -/
def slugify (text : Str) : Str :=
  trimDash (slugDashAux false (text.map Search.lowerChar))

def digitChar (d : Nat) : Char :=
  if d = 0 then '0' else if d = 1 then '1' else if d = 2 then '2'
  else if d = 3 then '3' else if d = 4 then '4' else if d = 5 then '5'
  else if d = 6 then '6' else if d = 7 then '7' else if d = 8 then '8'
  else '9'

def natStrAux : Nat → Nat → Str
  | 0, _ => []
  | fuel + 1, n =>
    if n < 10 then [digitChar n]
    else natStrAux fuel (n / 10) ++ [digitChar (n % 10)]

/-- The decimal rendering of a loop index, as fmt.Sprintf produces it. -/
def natStr (n : Nat) : Str := natStrAux (n + 1) n

/-- One match of tocHeadingPattern: the optional attribute capture
(empty when absent, exactly as the Go code reads it) and the inner
capture. -/
structure H2Match where
  attrs : Str
  inner : Str
deriving DecidableEq, Repr

/-- The lazy tail of the heading regex: split off the shortest prefix
(checked from the current position on) that is followed by the literal
closing tag, returning that prefix and the remainder after the tag. -/
def findClose : Str → Option (Str × Str)
  | [] => none
  | c :: rest =>
    if hasPre (c :: rest) ("</h2>".toList) then some ([], rest.drop 4)
    else (findClose rest).map (fun p => (c :: p.1, p.2))

/-- Match tocHeadingPattern at the start of `s`: the literal opening,
an optional attribute group starting with regex whitespace and running
to the closing angle bracket, then the lazy non-empty inner capture up
to the closing tag.  Returns the captures and the remainder. -/
def tryMatchAt (s : Str) : Option (H2Match × Str) :=
  if hasPre s ("<h2".toList) then
    match s.drop 3 with
    | '>' :: u =>
      match u with
      | [] => none
      | c :: u2 => (findClose u2).map (fun p => (⟨[], c :: p.1⟩, p.2))
    | d :: t =>
      if regexSpace d then
        match (d :: t).dropWhile (fun e => e ≠ '>') with
        | '>' :: u =>
          match u with
          | [] => none
          | c :: u2 =>
            (findClose u2).map
              (fun p => (⟨(d :: t).takeWhile (fun e => e ≠ '>'), c :: p.1⟩, p.2))
        | _ => none
      else none
    | [] => none
  else none

/-- FindAllSubmatchIndex: leftmost non-overlapping matches, scanning
resuming after each match.  Returns each match with the unmatched gap
before it, plus the tail after the last match. -/
def scanAux : Nat → Str → List (Str × H2Match) × Str
  | 0, s => ([], s)
  | _ + 1, [] => ([], [])
  | fuel + 1, c :: rest =>
    match tryMatchAt (c :: rest) with
    | some (m, after) =>
      match scanAux fuel after with
      | (ms, tail) => (([], m) :: ms, tail)
    | none =>
      match scanAux fuel rest with
      | ([], tail) => ([], c :: tail)
      | ((g, m2) :: ms, tail) => ((c :: g, m2) :: ms, tail)

def scanH2 (s : Str) : List (Str × H2Match) × Str := scanAux s.length s

/-- headingIDAttr with ReplaceAll "": remove every id attribute,
together with the whitespace run before it. -/
def removeIdAttrsAux : Nat → Str → Str
  | 0, s => s
  | _ + 1, [] => []
  | fuel + 1, c :: rest =>
    match (c :: rest).dropWhile regexSpace with
    | 'i' :: 'd' :: '=' :: '"' :: t =>
      match t.dropWhile (fun e => e ≠ '"') with
      | '"' :: rest2 => removeIdAttrsAux fuel rest2
      | _ => c :: removeIdAttrsAux fuel rest
    | _ => c :: removeIdAttrsAux fuel rest

def removeIdAttrs (s : Str) : Str := removeIdAttrsAux s.length s

def permalinkPat : Str := "<a class=\"permalink\" href=\"#".toList

/-- permalinkHrefPattern with ReplaceAll: retarget every permalink
anchor at the new slug. -/
def rewritePermalinksAux (slug : Str) : Nat → Str → Str
  | 0, s => s
  | _ + 1, [] => []
  | fuel + 1, c :: rest =>
    if hasPre (c :: rest) permalinkPat then
      match ((c :: rest).drop permalinkPat.length).dropWhile (fun e => e ≠ '"') with
      | '"' :: rest2 =>
        permalinkPat ++ slug ++ '"' :: rewritePermalinksAux slug fuel rest2
      | _ => c :: rewritePermalinksAux slug fuel rest
    else c :: rewritePermalinksAux slug fuel rest

def rewritePermalinks (slug s : Str) : Str := rewritePermalinksAux slug s.length s

/-- The text of a heading: inner capture with tags stripped and
whitespace collapsed. -/
def headingText (m : H2Match) : Str := collapseWhitespace (stripTags m.inner)

/-- The slug before deduplication: the slugified unescaped text, or
heading-i when that is empty. -/
def baseSlug (unescape : Str → Str) (m : H2Match) (i : Nat) : Str :=
  if slugify (unescape (headingText m)) = [] then "heading-".toList ++ natStr i
  else slugify (unescape (headingText m))

/-- The slug assigned to match number `i`: the base slug, with -i
appended when the base slug was already assigned. -/
def assignSlug (unescape : Str → Str) (m : H2Match) (i : Nat) (seen : List Str) : Str :=
  if baseSlug unescape m i ∈ seen then baseSlug unescape m i ++ '-' :: natStr i
  else baseSlug unescape m i

/-- The original text a match consumed. -/
def origText (m : H2Match) : Str :=
  "<h2".toList ++ m.attrs ++ '>' :: m.inner ++ "</h2>".toList

def h2IdPre : Str := ['<', 'h', '2', ' ', 'i', 'd', '=', '"']

/-- The rewritten heading written into the body: the opening tag with
the slug id first, the cleaned attributes, the permalink-rewritten
inner, the closing tag. -/
def renderHeading (slug : Str) (m : H2Match) : Str :=
  h2IdPre ++ slug ++ '"' :: removeIdAttrs m.attrs ++
    '>' :: rewritePermalinks slug m.inner ++ "</h2>".toList

/-- The heading loop of bGenerateTOC over the scanned matches: `i` is
the match index, `seen` the already-assigned slugs; returns the body
written so far and the TOC entries (id, escaped text). -/
def tocLoop (unescape : Str → Str) :
    List (Str × H2Match) → Nat → List Str → Str × List (Str × Str)
  | [], _, _ => ([], [])
  | (gap, m) :: rest, i, seen =>
    if headingText m = [] then
      match tocLoop unescape rest (i + 1) seen with
      | (b, es) => (gap ++ origText m ++ b, es)
    else
      match tocLoop unescape rest (i + 1) (assignSlug unescape m i seen :: seen) with
      | (b, es) =>
        (gap ++ renderHeading (assignSlug unescape m i seen) m ++ b,
          (assignSlug unescape m i seen, htmlEscape (unescape (headingText m))) :: es)

def tocPre : Str :=
  "<li class=\"p-table-of-contents__item\"><a class=\"p-table-of-contents__link\" ".toList

def hrefPat : Str := ['h', 'r', 'e', 'f', '=', '"', '#']

def tocMid : Str := ['"', '>']

def tocPost : Str := "</a></li>\n".toList

/-- One list item of the rendered TOC. -/
def renderTOCEntry (e : Str × Str) : Str :=
  tocPre ++ hrefPat ++ e.1 ++ tocMid ++ e.2 ++ tocPost

def renderTOC (es : List (Str × Str)) : Str := es.flatMap renderTOCEntry

/-- bGenerateTOC from toc.go, with html.UnescapeString a parameter. -/
def bGenerateTOC (unescape : Str → Str) (html : Str) : Str × Str :=
  match scanH2 html with
  | ([], _) => (html, [])
  | (ms, tail) =>
    match tocLoop unescape ms 0 [] with
    | (b, es) => (b ++ tail, renderTOC es)

/-- The slugs assigned to the headings, in order. -/
def tocSlugs (unescape : Str → Str) (html : Str) : List Str :=
  ((tocLoop unescape (scanH2 html).1 0 []).2).map (fun e => e.1)

/-- The targets of the anchor hrefs of a rendered fragment, in order. -/
def extractHrefsAux : Nat → Str → List Str
  | 0, _ => []
  | _ + 1, [] => []
  | fuel + 1, c :: rest =>
    if hasPre (c :: rest) hrefPat then
      match ((c :: rest).drop 7).dropWhile (fun e => e ≠ '"') with
      | '"' :: rest2 =>
        ((c :: rest).drop 7).takeWhile (fun e => e ≠ '"') :: extractHrefsAux fuel rest2
      | _ => extractHrefsAux fuel rest
    else extractHrefsAux fuel rest

def extractHrefs (s : Str) : List Str := extractHrefsAux s.length s

end Transform

/-! ### Theorems about the path resolver -/

namespace Paths

open GoStr

lemma trimSuffix_of_eq_append {pre suf : Str} : trimSuffix (pre ++ suf) suf = pre := by
  unfold trimSuffix
  rw [if_pos (List.isSuffixOf_iff_suffix.mpr (List.suffix_append pre suf))]
  simp [List.take_left]

lemma trimSuffix_eq_self {s suf : Str} (h : ¬ suf <:+ s) : trimSuffix s suf = s := by
  unfold trimSuffix
  rw [if_neg (fun hb => h (List.isSuffixOf_iff_suffix.mp hb))]

lemma suffix_through_slash {pat A y : Str} (hps : '/' ∉ pat) :
    pat <:+ (A ++ '/' :: y) ↔ pat <:+ y := by
  constructor
  · intro h
    have hy : ('/' :: y) <:+ (A ++ '/' :: y) := List.suffix_append A _
    rcases List.suffix_or_suffix_of_suffix h hy with h1 | h1
    · rcases h1 with ⟨t, ht⟩
      cases t with
      | nil =>
        have hpy : pat = '/' :: y := by simpa using ht
        exact absurd (hpy ▸ List.mem_cons_self '/' y) hps
      | cons a t2 =>
        rw [List.cons_append] at ht
        injection ht with h1 h2
        exact ⟨t2, h2⟩
    · exact absurd (h1.subset (List.mem_cons_self _ _)) hps
  · intro h
    have hA : A ++ '/' :: y = (A ++ ['/']) ++ y := by simp
    rw [hA]
    exact h.trans (List.suffix_append _ _)

lemma joinSlash_cons_ne {x : Str} {l : List Str} (h : l ≠ []) :
    joinSlash (x :: l) = x ++ '/' :: joinSlash l := by
  cases l with
  | nil => exact absurd rfl h
  | cons b l2 => rfl

lemma suffix_joinSlash_last {pat : Str} (hps : '/' ∉ pat) (xs : List Str) (y : Str) :
    (pat <:+ joinSlash (xs ++ [y])) ↔ pat <:+ y := by
  induction xs with
  | nil => simp [joinSlash]
  | cons x xs ih =>
    rw [List.cons_append, joinSlash_cons_ne (by simp), suffix_through_slash hps]
    exact ih

lemma suffix_render_last {pat : Str} (hps : '/' ∉ pat) (rooted : Bool) (xs : List Str) (y : Str) :
    (pat <:+ render rooted (xs ++ [y])) ↔ pat <:+ y := by
  unfold render
  cases rooted with
  | true =>
    simp only [if_true]
    have hA : ('/' :: joinSlash (xs ++ [y])) = [] ++ '/' :: joinSlash (xs ++ [y]) := rfl
    rw [hA, suffix_through_slash hps, suffix_joinSlash_last hps]
  | false =>
    simp only [if_false, Bool.false_eq_true]
    rw [if_neg (by simp)]
    exact suffix_joinSlash_last hps xs y

lemma joinSlash_last_append (xs : List Str) (y t : Str) :
    joinSlash (xs ++ [y]) ++ t = joinSlash (xs ++ [y ++ t]) := by
  induction xs with
  | nil => simp [joinSlash]
  | cons x xs ih =>
    rw [List.cons_append, List.cons_append, joinSlash_cons_ne (by simp),
      joinSlash_cons_ne (by simp), List.append_assoc, List.cons_append, ih]

lemma render_last_append (rooted : Bool) (xs : List Str) (y t : Str) :
    render rooted (xs ++ [y]) ++ t = render rooted (xs ++ [y ++ t]) := by
  unfold render
  cases rooted with
  | true =>
    simp only [if_true, List.cons_append, joinSlash_last_append]
  | false =>
    simp only [if_false, Bool.false_eq_true]
    rw [if_neg (by simp), if_neg (by simp), joinSlash_last_append]

lemma cleanSegsAux_goods (rooted : Bool) :
    ∀ (g : List Str) (acc : List Str), (∀ s ∈ g, goodSeg s) →
      cleanSegsAux rooted acc g = g.reverse ++ acc
  | [], _, _ => rfl
  | x :: g, acc, h => by
    obtain ⟨h1, h2, h3, _⟩ := h x (List.mem_cons_self _ _)
    unfold cleanSegsAux
    rw [if_neg (by tauto), if_neg h3,
      cleanSegsAux_goods rooted g (x :: acc) (fun s hs => h s (List.mem_cons_of_mem _ hs))]
    simp

lemma cleanSegsAux_dots :
    ∀ (d : Nat) (k : Nat) (g : List Str), (∀ s ∈ g, goodSeg s) →
      cleanSegsAux false (List.replicate k ['.', '.']) (List.replicate d ['.', '.'] ++ g) =
        g.reverse ++ List.replicate (d + k) ['.', '.']
  | 0, k, g, h => by
    simpa using cleanSegsAux_goods false g (List.replicate k ['.', '.']) h
  | d + 1, k, g, h => by
    rw [List.replicate_succ, List.cons_append]
    unfold cleanSegsAux
    rw [if_neg (by simp), if_pos rfl]
    rw [if_neg Bool.false_ne_true]
    cases k with
    | zero =>
      simp only [List.replicate]
      have hrec := cleanSegsAux_dots d 1 g h
      simpa only [List.replicate] using hrec
    | succ k2 =>
      rw [List.replicate_succ]
      simp only [if_pos rfl]
      rw [show d + 1 + (k2 + 1) = d + (k2 + 2) from by omega]
      have hrec := cleanSegsAux_dots d (k2 + 2) g h
      rw [show List.replicate (k2 + 2) ['.', '.'] =
        ['.', '.'] :: ['.', '.'] :: List.replicate k2 ['.', '.'] from rfl] at hrec
      exact hrec

lemma splitOnChar_not_mem (sep : Char) :
    ∀ (s : Str) (seg : Str), seg ∈ splitOnChar sep s → sep ∉ seg
  | [], seg, hm => by
    simp only [splitOnChar, List.mem_singleton] at hm
    simp [hm]
  | c :: rest, seg, hm => by
    unfold splitOnChar at hm
    by_cases hc : c = sep
    · rw [if_pos hc, List.mem_cons] at hm
      rcases hm with rfl | hm
      · simp
      · exact splitOnChar_not_mem sep rest seg hm
    · rw [if_neg hc] at hm
      rcases hrec : splitOnChar sep rest with _ | ⟨s2, ss⟩
      · rw [hrec, List.mem_singleton] at hm
        subst hm
        intro hmem
        rcases List.mem_singleton.mp hmem with rfl
        exact hc rfl
      · rw [hrec, List.mem_cons] at hm
        rcases hm with rfl | hm
        · intro hmem
          rcases List.mem_cons.mp hmem with rfl | hmem2
          · exact hc rfl
          · exact splitOnChar_not_mem sep rest s2 (by rw [hrec]; exact List.mem_cons_self _ _) hmem2
        · exact splitOnChar_not_mem sep rest seg (by rw [hrec]; exact List.mem_cons_of_mem _ hm)

lemma splitOnChar_single : ∀ (x : Str), '/' ∉ x → splitOnChar '/' x = [x]
  | [], _ => rfl
  | c :: x, h => by
    unfold splitOnChar
    rw [if_neg (by intro hc; exact h (hc ▸ List.mem_cons_self _ _)),
      splitOnChar_single x (fun hm => h (List.mem_cons_of_mem _ hm))]

lemma splitOnChar_append : ∀ (x s : Str), '/' ∉ x →
    splitOnChar '/' (x ++ '/' :: s) = x :: splitOnChar '/' s
  | [], s, _ => by
    rw [List.nil_append]
    conv_lhs => rw [splitOnChar]
    rw [if_pos rfl]
  | c :: x, s, h => by
    rw [List.cons_append]
    conv_lhs => rw [splitOnChar]
    rw [if_neg (by intro hc; exact h (hc ▸ List.mem_cons_self _ _)),
      splitOnChar_append x s (fun hm => h (List.mem_cons_of_mem _ hm))]

lemma splitOnChar_joinSlash :
    ∀ (out : List Str), out ≠ [] → (∀ s ∈ out, '/' ∉ s) →
      splitOnChar '/' (joinSlash out) = out
  | [], h, _ => absurd rfl h
  | [x], _, hf => splitOnChar_single x (hf x (List.mem_singleton_self x))
  | x :: y :: rest, _, hf => by
    rw [joinSlash_cons_ne (by simp),
      splitOnChar_append x _ (hf x (List.mem_cons_self _ _)),
      splitOnChar_joinSlash (y :: rest) (by simp) (fun s hs => hf s (List.mem_cons_of_mem _ hs))]

lemma OutOK_no_slash {rooted : Bool} {out : List Str} (h : OutOK rooted out) :
    ∀ s ∈ out, '/' ∉ s := by
  obtain ⟨d, g, rfl, hg, _⟩ := h
  intro s hs
  rcases List.mem_append.mp hs with hs | hs
  · have := List.eq_of_mem_replicate hs
    subst this
    simp
  · exact (hg s hs).2.2.2

lemma OutOK_ne_nil_mem {rooted : Bool} {out : List Str} (h : OutOK rooted out) :
    ∀ s ∈ out, s ≠ [] := by
  obtain ⟨d, g, rfl, hg, _⟩ := h
  intro s hs
  rcases List.mem_append.mp hs with hs | hs
  · have := List.eq_of_mem_replicate hs
    subst this
    simp
  · exact (hg s hs).1

lemma clean_render {rooted : Bool} {out : List Str} (h : OutOK rooted out) :
    clean (render rooted out) = render rooted out := by
  obtain ⟨d, g, hout, hg, hr⟩ := h
  cases rooted with
  | true =>
    have hd0 : d = 0 := hr rfl
    subst hd0
    have hout2 : out = g := by simpa using hout
    rw [hout2]
    cases g with
    | nil => decide
    | cons x g2 =>
      have hsplit : splitOnChar '/' (joinSlash (x :: g2)) = x :: g2 :=
        splitOnChar_joinSlash _ (by simp) (fun s hs => (hg s hs).2.2.2)
      show clean ('/' :: joinSlash (x :: g2)) = render true (x :: g2)
      unfold clean
      rw [if_neg (by simp),
        show (decide ((('/' : Char) :: joinSlash (x :: g2)).head? = some '/')) = true from by simp]
      conv_lhs => rw [splitOnChar]
      rw [if_pos rfl, hsplit]
      show render true ((cleanSegsAux true [] ([] :: x :: g2)).reverse) = _
      have hstep : cleanSegsAux true [] ([] :: x :: g2) = cleanSegsAux true [] (x :: g2) := by
        conv_lhs => rw [cleanSegsAux]
        rw [if_pos (Or.inl rfl)]
      rw [hstep, cleanSegsAux_goods true (x :: g2) [] hg]
      simp
  | false =>
    subst hout
    by_cases hnil : List.replicate d ['.', '.'] ++ g = []
    · rw [hnil]
      decide
    · have hOK : OutOK false (List.replicate d ['.', '.'] ++ g) :=
        ⟨d, g, rfl, hg, by simp⟩
      have hall : ∀ s ∈ List.replicate d ['.', '.'] ++ g, '/' ∉ s := OutOK_no_slash hOK
      obtain ⟨s0, rest, hsr⟩ := List.exists_cons_of_ne_nil hnil
      have hs0mem : s0 ∈ List.replicate d ['.', '.'] ++ g := by
        rw [hsr]
        exact List.mem_cons_self _ _
      have hs0ne : s0 ≠ [] := OutOK_ne_nil_mem hOK s0 hs0mem
      obtain ⟨c0, s0t, hs0⟩ := List.exists_cons_of_ne_nil hs0ne
      have hc0 : c0 ≠ '/' := fun hc =>
        hall s0 hs0mem (by rw [hs0, hc]; exact List.mem_cons_self _ _)
      have hhead : (joinSlash (List.replicate d ['.', '.'] ++ g)).head? = some c0 := by
        rw [hsr, hs0]
        cases rest with
        | nil => rfl
        | cons b l2 => rfl
      have hjne : joinSlash (List.replicate d ['.', '.'] ++ g) ≠ [] := by
        intro hh
        rw [hh] at hhead
        simp at hhead
      have hrender : render false (List.replicate d ['.', '.'] ++ g) =
          joinSlash (List.replicate d ['.', '.'] ++ g) := by
        unfold render
        rw [if_neg (by simp), if_neg hnil]
      rw [hrender]
      unfold clean
      rw [if_neg hjne,
        show (decide ((joinSlash (List.replicate d ['.', '.'] ++ g)).head? = some '/')) = false
          from by rw [hhead]; simp [hc0],
        splitOnChar_joinSlash _ hnil hall]
      have hrec := cleanSegsAux_dots d 0 g hg
      simp only [List.replicate] at hrec
      rw [hrec]
      simp only [Nat.add_zero]
      rw [List.reverse_append, List.reverse_reverse, List.reverse_replicate]
      exact hrender

lemma normHTML_ends_html (p : Str) : ".html".toList <:+ normalizeHTMLExt p := by
  unfold normalizeHTMLExt
  by_cases h : hasSuffix (trimSuffix p (".gz".toList)) (".html".toList)
  · rw [if_pos h]
    exact List.isSuffixOf_iff_suffix.mp h
  · rw [if_neg h]
    exact List.suffix_append _ _

lemma not_gz_of_html {u : Str} (h : ".html".toList <:+ u) : ¬ ".gz".toList <:+ u := by
  intro hg
  rcases List.suffix_or_suffix_of_suffix hg h with h1 | h1
  · exact absurd (List.isSuffixOf_iff_suffix.mpr h1) (by decide)
  · exact absurd (List.isSuffixOf_iff_suffix.mpr h1) (by decide)

lemma normHTML_of_html {u : Str} (h : ".html".toList <:+ u) : normalizeHTMLExt u = u := by
  unfold normalizeHTMLExt
  rw [trimSuffix_eq_self (not_gz_of_html h),
    if_pos (show hasSuffix u (".html".toList) from List.isSuffixOf_iff_suffix.mpr h)]

lemma html_suffix_goodSeg {s : Str} (h : ".html".toList <:+ s) (hs : '/' ∉ s) : goodSeg s := by
  have hlen : (".html".toList).length ≤ s.length := h.length_le
  refine ⟨?_, ?_, ?_, hs⟩ <;> rintro rfl <;> exact absurd hlen (by decide)

lemma eq_nil_or_append_last {α : Type} (l : List α) : l = [] ∨ ∃ l2 a, l = l2 ++ [a] := by
  rcases List.eq_nil_or_concat l with h | ⟨l2, a, h⟩
  · exact Or.inl h
  · exact Or.inr ⟨l2, a, by rw [h, List.concat_eq_append]⟩

lemma dropLast_OutOK {rooted : Bool} {out : List Str} (h : OutOK rooted out) (y2 : Str)
    (hy : goodSeg y2) : OutOK rooted (out.dropLast ++ [y2]) := by
  obtain ⟨d, g, rfl, hg, hr⟩ := h
  rcases eq_nil_or_append_last g with rfl | ⟨g0, z, rfl⟩
  · rw [List.append_nil]
    cases d with
    | zero =>
      exact ⟨0, [y2], by simp, by simpa using hy, fun _ => rfl⟩
    | succ d2 =>
      refine ⟨d2, [y2], ?_, by simpa using hy, fun hb => absurd (hr hb) (by simp)⟩
      rw [List.replicate_succ' d2, List.dropLast_concat]
  · rw [← List.append_assoc, List.dropLast_concat]
    refine ⟨d, g0 ++ [y2], by simp, ?_, hr⟩
    intro s hs
    rcases List.mem_append.mp hs with hs | hs
    · exact hg s (List.mem_append.mpr (Or.inl hs))
    · rw [List.mem_singleton] at hs
      subst hs
      exact hy

lemma clean_normHTML_render {rooted : Bool} {out : List Str} (h : OutOK rooted out) :
    clean (normalizeHTMLExt (render rooted out)) = normalizeHTMLExt (render rooted out) := by
  rcases eq_nil_or_append_last out with rfl | ⟨xs, y, rfl⟩
  · cases rooted <;> decide
  · have hy_mem : y ∈ xs ++ [y] := by simp
    have hyns : '/' ∉ y := OutOK_no_slash h y hy_mem
    have hxseq : (xs ++ [y]).dropLast = xs := List.dropLast_concat
    by_cases hgz : ".gz".toList <:+ y
    · obtain ⟨y0, hy0⟩ := hgz
      have hy0ns : '/' ∉ y0 := fun hm => hyns (by rw [← hy0]; exact List.mem_append.mpr (Or.inl hm))
      have hr : render rooted (xs ++ [y]) = render rooted (xs ++ [y0]) ++ ".gz".toList := by
        rw [render_last_append, hy0]
      by_cases hh : ".html".toList <:+ y0
      · have hgood : goodSeg y0 := html_suffix_goodSeg hh hy0ns
        have hOK2 : OutOK rooted (xs ++ [y0]) := hxseq ▸ dropLast_OutOK h y0 hgood
        have hnorm : normalizeHTMLExt (render rooted (xs ++ [y])) = render rooted (xs ++ [y0]) := by
          unfold normalizeHTMLExt
          rw [hr, trimSuffix_of_eq_append,
            if_pos (show hasSuffix _ (".html".toList) from
              List.isSuffixOf_iff_suffix.mpr ((suffix_render_last (by decide) rooted xs y0).mpr hh))]
        rw [hnorm, clean_render hOK2]
      · have hgood : goodSeg (y0 ++ ".html".toList) :=
          html_suffix_goodSeg (List.suffix_append _ _)
            (by
              intro hm
              rcases List.mem_append.mp hm with hm | hm
              · exact hy0ns hm
              · simp at hm)
        have hOK2 : OutOK rooted (xs ++ [y0 ++ ".html".toList]) :=
          hxseq ▸ dropLast_OutOK h _ hgood
        have hnorm : normalizeHTMLExt (render rooted (xs ++ [y])) =
            render rooted (xs ++ [y0 ++ ".html".toList]) := by
          unfold normalizeHTMLExt
          rw [hr, trimSuffix_of_eq_append,
            if_neg (show ¬ hasSuffix _ (".html".toList) from fun hb =>
              hh ((suffix_render_last (by decide) rooted xs y0).mp
                (List.isSuffixOf_iff_suffix.mp hb))),
            render_last_append]
        rw [hnorm, clean_render hOK2]
    · have hnotgz : ¬ ".gz".toList <:+ render rooted (xs ++ [y]) := fun hb =>
        hgz ((suffix_render_last (by decide) rooted xs y).mp hb)
      by_cases hh : ".html".toList <:+ y
      · have hnorm : normalizeHTMLExt (render rooted (xs ++ [y])) = render rooted (xs ++ [y]) := by
          unfold normalizeHTMLExt
          rw [trimSuffix_eq_self hnotgz,
            if_pos (show hasSuffix _ (".html".toList) from
              List.isSuffixOf_iff_suffix.mpr ((suffix_render_last (by decide) rooted xs y).mpr hh))]
        rw [hnorm, clean_render h]
      · have hgood : goodSeg (y ++ ".html".toList) :=
          html_suffix_goodSeg (List.suffix_append _ _)
            (by
              intro hm
              rcases List.mem_append.mp hm with hm | hm
              · exact hyns hm
              · simp at hm)
        have hOK2 : OutOK rooted (xs ++ [y ++ ".html".toList]) :=
          hxseq ▸ dropLast_OutOK h _ hgood
        have hnorm : normalizeHTMLExt (render rooted (xs ++ [y])) =
            render rooted (xs ++ [y ++ ".html".toList]) := by
          unfold normalizeHTMLExt
          rw [trimSuffix_eq_self hnotgz,
            if_neg (show ¬ hasSuffix _ (".html".toList) from fun hb =>
              hh ((suffix_render_last (by decide) rooted xs y).mp
                (List.isSuffixOf_iff_suffix.mp hb))),
            render_last_append]
        rw [hnorm, clean_render hOK2]

lemma stack_step (rooted : Bool) :
    ∀ (segs : List Str) (acc : List Str), (∀ s ∈ segs, '/' ∉ s) → StackOK rooted acc →
      StackOK rooted (cleanSegsAux rooted acc segs)
  | [], _, _, hst => hst
  | seg :: segs, acc, hfree, hst => by
    have hrest : ∀ s ∈ segs, '/' ∉ s := fun s hs => hfree s (List.mem_cons_of_mem _ hs)
    unfold cleanSegsAux
    by_cases h1 : seg = [] ∨ seg = ['.']
    · rw [if_pos h1]
      exact stack_step rooted segs acc hrest hst
    · rw [if_neg h1]
      by_cases h2 : seg = ['.', '.']
      · rw [if_pos h2]
        obtain ⟨g, d, rfl, hg, hr⟩ := hst
        cases rooted with
        | true =>
          rw [if_pos rfl]
          have hd0 : d = 0 := hr rfl
          subst hd0
          simp only [List.replicate, List.append_nil]
          cases g with
          | nil =>
            exact stack_step true segs [] hrest ⟨[], 0, by simp, by simp, fun _ => rfl⟩
          | cons a g2 =>
            exact stack_step true segs g2 hrest
              ⟨g2, 0, by simp, fun s hs => hg s (List.mem_cons_of_mem _ hs), fun _ => rfl⟩
        | false =>
          rw [if_neg Bool.false_ne_true]
          cases g with
          | nil =>
            simp only [List.nil_append]
            cases d with
            | zero =>
              simp only [List.replicate]
              exact stack_step false segs [seg] hrest
                ⟨[], 1, by simp [h2, List.replicate], by simp, by simp⟩
            | succ d2 =>
              rw [List.replicate_succ]
              exact stack_step false segs
                (seg :: ['.', '.'] :: List.replicate d2 ['.', '.']) hrest
                ⟨[], d2 + 2, by
                  rw [h2]
                  rfl, by simp, by simp⟩
          | cons a g2 =>
            have ha : goodSeg a := hg a (List.mem_cons_self _ _)
            rw [List.cons_append]
            show StackOK false
              (if a = ['.', '.'] then
                cleanSegsAux false (seg :: a :: (g2 ++ List.replicate d ['.', '.'])) segs
              else cleanSegsAux false (g2 ++ List.replicate d ['.', '.']) segs)
            rw [if_neg ha.2.2.1]
            exact stack_step false segs _ hrest
              ⟨g2, d, rfl, fun s hs => hg s (List.mem_cons_of_mem _ hs), by simp⟩
      · rw [if_neg h2]
        obtain ⟨g, d, rfl, hg, hr⟩ := hst
        have hgood : goodSeg seg := by
          refine ⟨?_, ?_, h2, hfree seg (List.mem_cons_self _ _)⟩
          · intro hc
            exact h1 (Or.inl hc)
          · intro hc
            exact h1 (Or.inr hc)
        refine stack_step rooted segs _ hrest ⟨seg :: g, d, by simp, ?_, hr⟩
        intro s hs
        rcases List.mem_cons.mp hs with rfl | hs
        · exact hgood
        · exact hg s hs

lemma StackOK_to_OutOK {rooted : Bool} {acc : List Str} (h : StackOK rooted acc) :
    OutOK rooted acc.reverse := by
  obtain ⟨g, d, rfl, hg, hr⟩ := h
  refine ⟨d, g.reverse, by rw [List.reverse_append, List.reverse_replicate], ?_, hr⟩
  intro s hs
  exact hg s (List.mem_reverse.mp hs)

lemma clean_shape (p : Str) : ∃ rooted out, OutOK rooted out ∧ clean p = render rooted out := by
  by_cases hp : p = []
  · refine ⟨false, [], ⟨0, [], by simp, by simp, by simp⟩, ?_⟩
    rw [hp]
    decide
  · refine ⟨decide (p.head? = some '/'),
      (cleanSegsAux (decide (p.head? = some '/')) [] (splitOnChar '/' p)).reverse, ?_, ?_⟩
    · exact StackOK_to_OutOK (stack_step _ _ []
        (fun s hs => splitOnChar_not_mem '/' p s hs)
        ⟨[], 0, by simp, by simp, fun _ => rfl⟩)
    · unfold clean
      rw [if_neg hp]

/-- C10: ConvertSymlinkTarget and ConvertSoTarget always return a path
ending in ".html" and never ending in ".gz", and ConvertSymlinkTarget is
idempotent. -/
theorem convert_targets_html_idempotent (t : Str) :
    (".html".toList <:+ convertSymlinkTarget t) ∧
    (¬ ".gz".toList <:+ convertSymlinkTarget t) ∧
    (".html".toList <:+ convertSoTarget t) ∧
    (¬ ".gz".toList <:+ convertSoTarget t) ∧
    convertSymlinkTarget (convertSymlinkTarget t) = convertSymlinkTarget t := by
  have h1 : ".html".toList <:+ convertSymlinkTarget t := normHTML_ends_html _
  have h3 : ".html".toList <:+ convertSoTarget t := normHTML_ends_html _
  refine ⟨h1, not_gz_of_html h1, h3, not_gz_of_html h3, ?_⟩
  unfold convertSymlinkTarget
  obtain ⟨rooted, out, hOK, heq⟩ := clean_shape t
  rw [heq, clean_normHTML_render hOK, normHTML_of_html (normHTML_ends_html _)]

/-- C7: the two concrete parse_manpage_path scenarios from the spec. -/
theorem parseManpagePath_scenarios :
    parseManpagePath ("jammy".toList) ("./usr/share/man/man1/ls.1.gz".toList) =
      some ⟨("manpages/jammy/man1/ls.1.html".toList),
        ("manpages.gz/jammy/man1/ls.1.gz".toList), 1, []⟩ ∧
    parseManpagePath ("noble".toList) ("./usr/share/man/zh_CN/man8/apt-get.8.gz".toList) =
      some ⟨("manpages/noble/zh_CN/man8/apt-get.8.html".toList),
        ("manpages.gz/noble/zh_CN/man8/apt-get.8.gz".toList), 8, ("zh_CN".toList)⟩ := by
  exact ⟨by decide, by decide⟩

end Paths

/-! ### Theorems about the archive fetcher -/

namespace Fetcher

open GoStr

lemma parseDebVersion_isSome_ne_nil {s : Str} (h : (parseDebVersion s).isSome = true) :
    s ≠ [] := by
  intro hs
  rw [hs] at h
  simp [parseDebVersion] at h

lemma versionGreater_parsable {a b : Str} {va vb : DebVersion}
    (ha : parseDebVersion a = some va) (hb : parseDebVersion b = some vb) :
    versionGreater a b = decide (debKey vb < debKey va) := by
  have hbne : b ≠ [] := parseDebVersion_isSome_ne_nil (by rw [hb]; rfl)
  unfold versionGreater
  rw [if_neg hbne, ha, hb]

lemma versionGreater_unparsable {left right : Str} (h : parseDebVersion left = none)
    (hr : right ≠ []) : versionGreater left right = false := by
  unfold versionGreater
  rw [if_neg hr, h]

lemma debVersionLE_parsable {a b : Str} {va vb : DebVersion}
    (ha : parseDebVersion a = some va) (hb : parseDebVersion b = some vb) :
    debVersionLE a b = decide (debKey va ≤ debKey vb) := by
  unfold debVersionLE
  rw [ha, hb]

lemma lookupPkg_append_single (m : List (Str × Package)) (k : Str) (v : Package) (n : Str) :
    lookupPkg (m ++ [(k, v)]) n =
      match lookupPkg m n with
      | some q => some q
      | none => if k = n then some v else none := by
  induction m with
  | nil => rfl
  | cons e m ih =>
    obtain ⟨ek, ev⟩ := e
    by_cases he : ek = n
    · simp [lookupPkg, he]
    · simp only [List.cons_append, lookupPkg, if_neg he]
      exact ih

lemma lookupPkg_updatePkg_self {m : List (Str × Package)} {n : Str} {q : Package}
    (h : lookupPkg m n = some q) (c : Package) :
    lookupPkg (updatePkg m n c) n = some c := by
  induction m with
  | nil => simp [lookupPkg] at h
  | cons e m ih =>
    obtain ⟨ek, ev⟩ := e
    by_cases he : ek = n
    · simp [lookupPkg, updatePkg, he]
    · simp only [lookupPkg, if_neg he] at h
      simp only [updatePkg, if_neg he, lookupPkg, if_neg he]
      exact ih h

lemma lookupPkg_updatePkg_ne {m : List (Str × Package)} {n n2 : Str} (hne : n2 ≠ n)
    (c : Package) : lookupPkg (updatePkg m n c) n2 = lookupPkg m n2 := by
  induction m with
  | nil => rfl
  | cons e m ih =>
    obtain ⟨ek, ev⟩ := e
    unfold updatePkg
    by_cases he : ek = n
    · rw [if_pos he]
      have hek2 : ¬ ek = n2 := fun h => hne (h ▸ he)
      show (if ek = n2 then some c else lookupPkg m n2) =
        if ek = n2 then some ev else lookupPkg m n2
      rw [if_neg hek2, if_neg hek2]
    · rw [if_neg he]
      show (if ek = n2 then some ev else lookupPkg (updatePkg m n c) n2) =
        if ek = n2 then some ev else lookupPkg m n2
      by_cases he2 : ek = n2
      · rw [if_pos he2, if_pos he2]
      · rw [if_neg he2, if_neg he2, ih]

lemma mergeStep_inv {processed : List Package} {m : List (Str × Package)} {c : Package}
    (hinv : MergeInv processed m)
    (hc : (parseDebVersion c.version).isSome = true)
    (hp : ∀ q ∈ processed, (parseDebVersion q.version).isSome = true) :
    MergeInv (processed ++ [c]) (mergeStep m c) := by
  obtain ⟨hval, hpres⟩ := hinv
  obtain ⟨vc, hvc⟩ := Option.isSome_iff_exists.mp hc
  unfold mergeStep
  rcases hcur : lookupPkg m c.name with _ | current
  · show MergeInv (processed ++ [c]) (m ++ [(c.name, c)])
    constructor
    · intro n q hq
      rw [lookupPkg_append_single] at hq
      rcases hmq : lookupPkg m n with _ | q0
      · rw [hmq] at hq
        simp only at hq
        by_cases hkn : c.name = n
        · rw [if_pos hkn] at hq
          injection hq with hq
          subst hq
          refine ⟨List.mem_append.mpr (Or.inr (List.mem_singleton_self _)), hkn, ?_⟩
          intro c2 hc2 hc2n
          rcases List.mem_append.mp hc2 with hc2 | hc2
          · have hpr : lookupPkg m c2.name ≠ none := hpres c2 hc2
            rw [hc2n, ← hkn] at hpr
            exact absurd hcur hpr
          · rw [List.mem_singleton] at hc2
            subst hc2
            rw [debVersionLE_parsable hvc hvc]
            simp
        · rw [if_neg hkn] at hq
          exact absurd hq (by simp)
      · rw [hmq] at hq
        simp only at hq
        injection hq with hqe
        obtain ⟨hq1, hq2, hq3⟩ := hval n q0 hmq
        subst hqe
        refine ⟨List.mem_append.mpr (Or.inl hq1), hq2, ?_⟩
        intro c2 hc2 hc2n
        rcases List.mem_append.mp hc2 with hc2 | hc2
        · exact hq3 c2 hc2 hc2n
        · rw [List.mem_singleton] at hc2
          subst hc2
          have hmq2 := hmq
          rw [← hc2n] at hmq2
          rw [hcur] at hmq2
          exact absurd hmq2 (by simp)
    · intro c2 hc2
      rw [lookupPkg_append_single]
      rcases List.mem_append.mp hc2 with hc2 | hc2
      · have := hpres c2 hc2
        rcases hmq : lookupPkg m c2.name with _ | q0
        · exact absurd hmq this
        · simp
      · rw [List.mem_singleton] at hc2
        subst hc2
        rw [hcur]
        simp
  · obtain ⟨hcu1, hcu2, hcu3⟩ := hval c.name current hcur
    obtain ⟨vcur, hvcur⟩ := Option.isSome_iff_exists.mp (hp current hcu1)
    show MergeInv (processed ++ [c])
      (if versionGreater c.version current.version = true then updatePkg m c.name c else m)
    rw [versionGreater_parsable hvc hvcur]
    by_cases hgt : debKey vcur < debKey vc
    · rw [if_pos (by simpa using hgt)]
      constructor
      · intro n q hq
        by_cases hkn : n = c.name
        · subst hkn
          rw [lookupPkg_updatePkg_self hcur] at hq
          injection hq with hq
          subst hq
          refine ⟨List.mem_append.mpr (Or.inr (List.mem_singleton_self _)), rfl, ?_⟩
          intro c2 hc2 hc2n
          rcases List.mem_append.mp hc2 with hc2 | hc2
          · have h1 := hcu3 c2 hc2 hc2n
            obtain ⟨vc2, hvc2⟩ := Option.isSome_iff_exists.mp (hp c2 hc2)
            rw [debVersionLE_parsable hvc2 hvcur] at h1
            rw [debVersionLE_parsable hvc2 hvc]
            simp only [decide_eq_true_eq] at h1 ⊢
            exact le_of_lt (lt_of_le_of_lt h1 hgt)
          · rw [List.mem_singleton] at hc2
            subst hc2
            rw [debVersionLE_parsable hvc hvc]
            simp
        · rw [lookupPkg_updatePkg_ne hkn] at hq
          obtain ⟨hq1, hq2, hq3⟩ := hval n q hq
          refine ⟨List.mem_append.mpr (Or.inl hq1), hq2, ?_⟩
          intro c2 hc2 hc2n
          rcases List.mem_append.mp hc2 with hc2 | hc2
          · exact hq3 c2 hc2 hc2n
          · rw [List.mem_singleton] at hc2
            subst hc2
            exact absurd hc2n (fun h => hkn h.symm)
      · intro c2 hc2
        rcases List.mem_append.mp hc2 with hc2 | hc2
        · by_cases hkn : c2.name = c.name
          · rw [hkn, lookupPkg_updatePkg_self hcur]
            simp
          · rw [lookupPkg_updatePkg_ne hkn]
            exact hpres c2 hc2
        · rw [List.mem_singleton] at hc2
          subst hc2
          rw [lookupPkg_updatePkg_self hcur]
          simp
    · rw [if_neg (by simpa using hgt)]
      constructor
      · intro n q hq
        obtain ⟨hq1, hq2, hq3⟩ := hval n q hq
        refine ⟨List.mem_append.mpr (Or.inl hq1), hq2, ?_⟩
        intro c2 hc2 hc2n
        rcases List.mem_append.mp hc2 with hc2 | hc2
        · exact hq3 c2 hc2 hc2n
        · rw [List.mem_singleton] at hc2
          subst hc2
          have hcur2 := hcur
          rw [hc2n, hq] at hcur2
          injection hcur2 with hqcur
          rw [hqcur, debVersionLE_parsable hvc hvcur]
          simp only [decide_eq_true_eq]
          exact le_of_not_lt hgt
      · intro c2 hc2
        rcases List.mem_append.mp hc2 with hc2 | hc2
        · exact hpres c2 hc2
        · rw [List.mem_singleton] at hc2
          subst hc2
          rw [hcur]
          simp

lemma mergeFold_inv :
    ∀ (cs : List Package) (processed : List Package) (m : List (Str × Package)),
      (∀ c ∈ processed ++ cs, (parseDebVersion c.version).isSome = true) →
      MergeInv processed m →
      MergeInv (processed ++ cs) (cs.foldl mergeStep m)
  | [], processed, m, _, hinv => by simpa using hinv
  | c :: cs, processed, m, hall, hinv => by
    have hc : (parseDebVersion c.version).isSome = true :=
      hall c (List.mem_append.mpr (Or.inr (List.mem_cons_self _ _)))
    have hp : ∀ q ∈ processed, (parseDebVersion q.version).isSome = true :=
      fun q hq => hall q (List.mem_append.mpr (Or.inl hq))
    have hstep := mergeStep_inv hinv hc hp
    have hrec := mergeFold_inv cs (processed ++ [c]) (mergeStep m c)
      (by
        intro c2 hc2
        apply hall
        rw [List.append_assoc] at hc2
        simpa using hc2) hstep
    rw [List.append_assoc] at hrec
    simpa using hrec

/-- C2 counterexample: the first candidate for a name may carry an
unparsable version and is then retained against a later, strictly
comparable parsable candidate, so an unparsable incumbent wins a
comparison against a parsable one. -/
theorem fetchPackages_unparsable_counterexample :
    lookupPkg
      (mergeCandidates
        [⟨("foo".toList), ("a:1".toList), ("f1".toList), ("s1".toList)⟩,
         ⟨("foo".toList), ("1.0".toList), ("f2".toList), ("s2".toList)⟩])
      ("foo".toList) =
        some ⟨("foo".toList), ("a:1".toList), ("f1".toList), ("s1".toList)⟩ ∧
    parseDebVersion ("a:1".toList) = none ∧
    (parseDebVersion ("1.0".toList)).isSome = true ∧
    versionGreater ("1.0".toList) ("a:1".toList) = false := by
  refine ⟨by decide, by decide, by decide, by decide⟩

/-- C2 (amended): an unparsable candidate never displaces an incumbent
with a non-empty version, and whenever every candidate version parses,
the package selected for a name is one of the candidates of that name and
carries a maximal version under Debian ordering. -/
theorem fetchPackages_version_selection :
    (∀ (left right : Str), parseDebVersion left = none → right ≠ [] →
      versionGreater left right = false) ∧
    (∀ (candidates : List Package),
      (∀ c ∈ candidates, (parseDebVersion c.version).isSome = true) →
      ∀ name p, lookupPkg (mergeCandidates candidates) name = some p →
        p ∈ candidates ∧ p.name = name ∧
        ∀ c ∈ candidates, c.name = name → debVersionLE c.version p.version = true) := by
  constructor
  · intro left right h hr
    exact versionGreater_unparsable h hr
  · intro candidates hall name p hp
    have hinv := mergeFold_inv candidates [] []
      (by simpa using hall)
      ⟨by intro n q hq; simp [lookupPkg] at hq, by intro c hc; simp at hc⟩
    rw [List.nil_append] at hinv
    exact hinv.1 name p hp

/-- Witness for the amended C2 theorem at the concrete candidate list of
spec scenario 5. -/
theorem fetchPackages_version_selection_witness :
    versionGreater ("a:1".toList) ("1.0".toList) = false ∧
    (⟨("foo".toList), ("2.0-1".toList), ("pf2".toList), ("h2".toList)⟩ : Package) ∈
      [⟨("foo".toList), ("2.0-1".toList), ("pf2".toList), ("h2".toList)⟩,
       ⟨("foo".toList), ("1.0-1".toList), ("pf1".toList), ("h1".toList)⟩,
       ⟨("bar".toList), ("1.0-1".toList), ("pb1".toList), ("h3".toList)⟩] := by
  constructor
  · exact fetchPackages_version_selection.1 ("a:1".toList) ("1.0".toList) (by decide) (by decide)
  · have h := fetchPackages_version_selection.2
      [⟨("foo".toList), ("2.0-1".toList), ("pf2".toList), ("h2".toList)⟩,
       ⟨("foo".toList), ("1.0-1".toList), ("pf1".toList), ("h1".toList)⟩,
       ⟨("bar".toList), ("1.0-1".toList), ("pb1".toList), ("h3".toList)⟩]
      (by decide) ("foo".toList)
      ⟨("foo".toList), ("2.0-1".toList), ("pf2".toList), ("h2".toList)⟩ (by decide)
    exact h.1

lemma stanzasOf_ne_nil : ∀ (lines : List Str), stanzasOf lines ≠ []
  | [] => by simp [stanzasOf]
  | l :: rest => by
    unfold stanzasOf
    by_cases hl : l = []
    · rw [if_pos hl]
      simp
    · rw [if_neg hl]
      rcases h : stanzasOf rest with _ | ⟨st, ss⟩
      · simp
      · simp

lemma flushStanza_toList (f : StanzaFields) (results : List Package) :
    flushStanza f results = results ++ (stanzaCandidateFrom f []).toList := by
  unfold flushStanza stanzaCandidateFrom
  simp only [List.foldl_nil]
  by_cases h : f.pkg = [] ∨ f.filename = [] ∨ f.sha1 = []
  · rw [if_pos h, if_pos h]
    simp
  · rw [if_neg h, if_neg h]
    simp

lemma filterMap_cons_toList (st : List Str) (ss : List (List Str)) :
    (stanzaCandidate st).toList ++ ss.filterMap stanzaCandidate =
      (st :: ss).filterMap stanzaCandidate := by
  rw [List.filterMap_cons]
  rcases stanzaCandidate st with _ | p <;> simp

lemma parsePackagesAux_eq :
    ∀ (lines : List Str) (f : StanzaFields) (results : List Package)
      (st : List Str) (rest : List (List Str)), stanzasOf lines = st :: rest →
      parsePackagesAux lines f results =
        results ++ (stanzaCandidateFrom f st).toList ++ rest.filterMap stanzaCandidate
  | [], f, results, st, rest, hst => by
    simp only [stanzasOf] at hst
    injection hst with h1 h2
    subst h1
    subst h2
    simp only [parsePackagesAux, List.filterMap_nil, List.append_nil]
    exact flushStanza_toList f results
  | line :: rest2, f, results, st, rest, hst => by
    unfold stanzasOf at hst
    by_cases hl : line = []
    · rw [if_pos hl] at hst
      injection hst with h1 h2
      subst h1
      subst h2
      unfold parsePackagesAux
      rw [if_pos hl]
      rcases h2 : stanzasOf rest2 with _ | ⟨st2, ss⟩
      · exact absurd h2 (stanzasOf_ne_nil rest2)
      · rw [parsePackagesAux_eq rest2 emptyFields (flushStanza f results) st2 ss h2,
          flushStanza_toList, ← filterMap_cons_toList st2 ss]
        simp [List.append_assoc, stanzaCandidate]
    · rw [if_neg hl] at hst
      rcases h2 : stanzasOf rest2 with _ | ⟨st2, ss⟩
      · exact absurd h2 (stanzasOf_ne_nil rest2)
      · rw [h2] at hst
        injection hst with h1 h3
        subst h1
        subst h3
        unfold parsePackagesAux
        rw [if_neg hl,
          parsePackagesAux_eq rest2 (parseLine f line) results st2 ss h2]
        rfl

lemma stanzaCandidate_fields {st : List Str} {p : Package}
    (h : stanzaCandidate st = some p) :
    p.name ≠ [] ∧ p.filename ≠ [] ∧ p.sha1 ≠ [] := by
  unfold stanzaCandidate stanzaCandidateFrom at h
  by_cases hb : (st.foldl parseLine emptyFields).pkg = [] ∨
      (st.foldl parseLine emptyFields).filename = [] ∨
      (st.foldl parseLine emptyFields).sha1 = []
  · rw [if_pos hb] at h
    exact absurd h (by simp)
  · rw [if_neg hb] at h
    push_neg at hb
    injection h with h
    subst h
    exact ⟨hb.1, hb.2.1, hb.2.2⟩

/-- C3 counterexample: a stanza with Package, Filename and SHA1 but no
Version line is not dropped; it yields a candidate with an empty version. -/
theorem parsePackages_missing_version_counterexample :
    parsePackages [("Package: a".toList), ("Filename: f".toList), ("SHA1: s".toList)] =
      [⟨("a".toList), [], ("f".toList), ("s".toList)⟩] ∧
    parsePackages [("Package: a".toList), ("Filename: f".toList), ("SHA1: s".toList)] ≠ [] := by
  refine ⟨by decide, by decide⟩

/-- C3 (amended): the parser emits, for each blank-line-separated stanza,
exactly one candidate built from the four retained fields whenever
Package, Filename and SHA1 are all present, and silently drops the stanza
when any of those three is missing; a missing Version yields a candidate
with an empty version, and every emitted candidate has non-empty Package,
Filename and SHA1. -/
theorem parsePackages_stanza_semantics (lines : List Str) :
    parsePackages lines = (stanzasOf lines).filterMap stanzaCandidate ∧
    ∀ p ∈ parsePackages lines, p.name ≠ [] ∧ p.filename ≠ [] ∧ p.sha1 ≠ [] := by
  have hmain : parsePackages lines = (stanzasOf lines).filterMap stanzaCandidate := by
    rcases h : stanzasOf lines with _ | ⟨st, ss⟩
    · exact absurd h (stanzasOf_ne_nil lines)
    · unfold parsePackages
      rw [parsePackagesAux_eq lines emptyFields [] st ss h,
        ← filterMap_cons_toList st ss]
      simp [stanzaCandidate]
  refine ⟨hmain, ?_⟩
  intro p hp
  rw [hmain] at hp
  obtain ⟨st, _, hsome⟩ := List.mem_filterMap.mp hp
  exact stanzaCandidate_fields hsome

/-- Witness for the amended C3 theorem at a concrete two-stanza input. -/
theorem parsePackages_stanza_semantics_witness :
    parsePackages
        [("Package: a".toList), ("Version: 1.0".toList), ("Filename: f".toList),
         ("SHA1: s".toList), [], ("Package: b".toList)] =
      (stanzasOf
        [("Package: a".toList), ("Version: 1.0".toList), ("Filename: f".toList),
         ("SHA1: s".toList), [], ("Package: b".toList)]).filterMap stanzaCandidate ∧
    (("a".toList : Str) ≠ [] ∧ ("f".toList : Str) ≠ [] ∧ ("s".toList : Str) ≠ []) := by
  constructor
  · exact (parsePackages_stanza_semantics _).1
  · exact (parsePackages_stanza_semantics
      [("Package: a".toList), ("Version: 1.0".toList), ("Filename: f".toList),
       ("SHA1: s".toList), [], ("Package: b".toList)]).2
      ⟨("a".toList), ("1.0".toList), ("f".toList), ("s".toList)⟩ (by decide)

end Fetcher

/-! ### Theorems about the FetchDeb retry loop -/

namespace Fetcher

/-- C4 counterexample: a persistent HTTP 404 response is retried exactly
like a transport error; all three attempts are made, with the 1-second
and 2-second waits, rather than the single attempt the claim requires. -/
theorem fetchDeb_retries_on_http_status :
    fetchDeb (fun _ => .httpStatus 404) (fun _ => false) (fun _ => false) =
      ⟨3, [1, 2], .failed (.status 404)⟩ ∧
    (fetchDeb (fun _ => .httpStatus 404) (fun _ => false) (fun _ => false)).attemptsMade ≠ 1 := by
  refine ⟨by decide, by decide⟩

/-- C4 (amended): fetch_deb makes up to three total attempts, retrying
after any failed attempt — transport errors and HTTP non-2xx responses
alike — sleeping 1 second before the second attempt and 2 seconds before
the third, returning early when cancellation fires during a
between-attempt wait, and stopping early only on success or
cancellation. -/
theorem fetchDeb_retry_policy (outcome : Nat → AttemptOutcome)
    (cancelWait cancelAfter : Nat → Bool) (a : Nat) (sl : List Nat) (r : FetchDebResult)
    (heq : fetchDeb outcome cancelWait cancelAfter = ⟨a, sl, r⟩) :
    a ≤ 3 ∧
    sl = (List.range a).filter (fun i => decide (0 < i)) ∧
    (∀ i, i + 1 < a → attemptError (outcome i) ≠ none) ∧
    (r = .ctxCancelled → 0 < a ∧ cancelWait a = true) ∧
    (r = .ok ↔ (0 < a ∧ attemptError (outcome (a - 1)) = none)) ∧
    ((∀ i, cancelWait i = false ∧ cancelAfter i = false) → a = 3 ∨ r = .ok) := by
  unfold fetchDeb at heq
  unfold fetchDebAux at heq
  rw [if_neg (by simp)] at heq
  simp only [Nat.lt_irrefl, if_false] at heq
  rcases h0 : attemptError (outcome 0) with _ | e0
  · rw [h0] at heq
    simp only at heq
    cases heq
    refine ⟨by omega, by decide, by omega, by simp, by simp [h0], fun _ => Or.inr rfl⟩
  · rw [h0] at heq
    simp only at heq
    by_cases hca0 : cancelAfter 0 = true
    · rw [if_pos hca0] at heq
      cases heq
      refine ⟨by omega, by decide, by omega, by simp, by simp [h0], ?_⟩
      intro hnone
      exact absurd hca0 (by simp [(hnone 0).2])
    · rw [if_neg hca0] at heq
      unfold fetchDebAux at heq
      by_cases hw1 : cancelWait 1 = true
      · rw [if_pos (by simp [hw1])] at heq
        cases heq
        refine ⟨by omega, by decide, by omega, by simp [hw1], ?_, ?_⟩
        · simp [h0]
        · intro hnone
          exact absurd hw1 (by simp [(hnone 1).1])
      · rw [if_neg (by simp [hw1])] at heq
        simp only [Nat.zero_lt_one, if_true, List.nil_append] at heq
        rcases h1 : attemptError (outcome 1) with _ | e1
        · rw [h1] at heq
          simp only at heq
          cases heq
          refine ⟨by omega, by decide, ?_, by simp, by simp [h1], fun _ => Or.inr rfl⟩
          intro i hi
          have : i = 0 := by omega
          subst this
          simp [h0]
        · rw [h1] at heq
          simp only at heq
          by_cases hca1 : cancelAfter 1 = true
          · rw [if_pos hca1] at heq
            cases heq
            refine ⟨by omega, by decide, ?_, by simp, by simp [h1], ?_⟩
            · intro i hi
              have : i = 0 := by omega
              subst this
              simp [h0]
            · intro hnone
              exact absurd hca1 (by simp [(hnone 1).2])
          · rw [if_neg hca1] at heq
            unfold fetchDebAux at heq
            by_cases hw2 : cancelWait 2 = true
            · rw [if_pos (by simp [hw2])] at heq
              cases heq
              refine ⟨by omega, by decide, ?_, by simp [hw2], by simp [h1], ?_⟩
              · intro i hi
                have : i = 0 := by omega
                subst this
                simp [h0]
              · intro hnone
                exact absurd hw2 (by simp [(hnone 2).1])
            · rw [if_neg (by simp [hw2])] at heq
              simp only [Nat.zero_lt_two, if_true] at heq
              rcases h2 : attemptError (outcome 2) with _ | e2
              · rw [h2] at heq
                simp only at heq
                cases heq
                refine ⟨by omega, by decide, ?_, by simp, by simp [h2], fun _ => Or.inl rfl⟩
                intro i hi
                have : i = 0 ∨ i = 1 := by omega
                rcases this with rfl | rfl
                · simp [h0]
                · simp [h1]
              · rw [h2] at heq
                simp only at heq
                by_cases hca2 : cancelAfter 2 = true
                · rw [if_pos hca2] at heq
                  cases heq
                  refine ⟨by omega, by decide, ?_, by simp, by simp [h2], fun _ => Or.inl rfl⟩
                  intro i hi
                  have : i = 0 ∨ i = 1 := by omega
                  rcases this with rfl | rfl
                  · simp [h0]
                  · simp [h1]
                · rw [if_neg hca2] at heq
                  unfold fetchDebAux at heq
                  cases heq
                  refine ⟨by omega, by decide, ?_, by simp, by simp [h2], fun _ => Or.inl rfl⟩
                  intro i hi
                  have : i = 0 ∨ i = 1 := by omega
                  rcases this with rfl | rfl
                  · simp [h0]
                  · simp [h1]

/-- Witness for the amended C4 theorem: one transport failure followed by
a successful attempt, as in the repository test
TestFetchDeb_RetriesOnConnectionReset. -/
theorem fetchDeb_retry_policy_witness :
    fetchDeb (fun i => if i = 0 then .transportError else .httpStatus 200)
        (fun _ => false) (fun _ => false) = ⟨2, [1], .ok⟩ ∧
    ((2 : Nat) ≤ 3 ∧
      ([1] : List Nat) = (List.range 2).filter (fun i => decide (0 < i)) ∧
      (∀ i, i + 1 < 2 →
        attemptError ((fun i => if i = 0 then AttemptOutcome.transportError
          else .httpStatus 200) i) ≠ none) ∧
      (FetchDebResult.ok = .ctxCancelled → 0 < 2 ∧ (fun (_ : Nat) => false) 2 = true) ∧
      (FetchDebResult.ok = .ok ↔ (0 < 2 ∧
        attemptError ((fun i => if i = 0 then AttemptOutcome.transportError
          else .httpStatus 200) (2 - 1)) = none)) ∧
      ((∀ i, (fun (_ : Nat) => false) i = false ∧ (fun (_ : Nat) => false) i = false) →
        2 = 3 ∨ FetchDebResult.ok = .ok)) := by
  refine ⟨by decide, ?_⟩
  exact fetchDeb_retry_policy (fun i => if i = 0 then .transportError else .httpStatus 200)
    (fun _ => false) (fun _ => false) 2 [1] .ok (by decide)

end Fetcher

/-! ### Theorems about the search-query sanitizer -/

namespace Search

open GoStr

lemma splitOnPred_ne_nil (p : Char → Bool) : ∀ (s : Str), splitOnPred p s ≠ []
  | [] => by simp [splitOnPred]
  | c :: rest => by
    unfold splitOnPred
    by_cases hc : p c = true
    · rw [if_pos hc]
      simp
    · rw [if_neg hc]
      rcases h : splitOnPred p rest with _ | ⟨s2, ss⟩
      · simp
      · simp

/-- The first piece of the split of `a ++ b` is the last piece of the
split of `a` glued to the first piece of the split of `b`. -/
lemma splitOnPred_append (p : Char → Bool) :
    ∀ (a b : Str) (bh : Str) (bt : List Str), splitOnPred p b = bh :: bt →
      ∃ init last, splitOnPred p a = init ++ [last] ∧
        splitOnPred p (a ++ b) = init ++ (last ++ bh) :: bt
  | [], b, bh, bt, hb => ⟨[], [], by simp [splitOnPred], by simpa using hb⟩
  | c :: a2, b, bh, bt, hb => by
    obtain ⟨init, last, h1, h2⟩ := splitOnPred_append p a2 b bh bt hb
    by_cases hc : p c = true
    · refine ⟨[] :: init, last, ?_, ?_⟩
      · show splitOnPred p (c :: a2) = _
        unfold splitOnPred
        rw [if_pos hc, h1]
        rfl
      · show splitOnPred p (c :: (a2 ++ b)) = _
        unfold splitOnPred
        rw [if_pos hc, h2]
        rfl
    · rcases init with _ | ⟨i0, irest⟩
      · refine ⟨[], c :: last, ?_, ?_⟩
        · show splitOnPred p (c :: a2) = _
          unfold splitOnPred
          rw [if_neg hc, h1]
          rfl
        · show splitOnPred p (c :: (a2 ++ b)) = _
          unfold splitOnPred
          rw [if_neg hc, h2]
          simp
      · refine ⟨(c :: i0) :: irest, last, ?_, ?_⟩
        · show splitOnPred p (c :: a2) = _
          unfold splitOnPred
          rw [if_neg hc, h1]
          rfl
        · show splitOnPred p (c :: (a2 ++ b)) = _
          unfold splitOnPred
          rw [if_neg hc, h2]
          rfl

lemma fields_allspace : ∀ (s : Str), (∀ c ∈ s, isSpace c = true) → fields s = []
  | [], _ => by simp [fields, splitOnPred]
  | c :: rest, h => by
    unfold fields splitOnPred
    rw [if_pos (h c (List.mem_cons_self _ _))]
    simp only [List.filter_cons]
    rw [if_neg (by simp)]
    exact fields_allspace rest (fun d hd => h d (List.mem_cons_of_mem _ hd))

lemma fields_append_spaces (x post : Str) (hpost : ∀ c ∈ post, isSpace c = true) :
    fields (x ++ post) = fields x := by
  rcases hb : splitOnPred isSpace post with _ | ⟨bh, bt⟩
  · exact absurd hb (splitOnPred_ne_nil isSpace post)
  obtain ⟨init, last, h1, h2⟩ := splitOnPred_append isSpace x post bh bt hb
  have hpostf : fields post = [] := fields_allspace post hpost
  unfold fields at hpostf ⊢
  rw [hb] at hpostf
  simp only [List.filter_cons] at hpostf
  have hbh : bh = [] := by
    by_cases hh : bh = []
    · exact hh
    · rw [if_pos (by simpa using hh)] at hpostf
      exact absurd hpostf (by simp)
  subst hbh
  rw [if_neg (by simp)] at hpostf
  rw [h1, h2, List.append_nil, List.filter_append, List.filter_append]
  congr 1
  simp only [List.filter_cons, List.filter_nil]
  by_cases hl : last = []
  · rw [if_neg (by simpa using hl), if_neg (by simpa using hl), hpostf]
  · rw [if_pos (by simpa using hl), if_pos (by simpa using hl), hpostf]

lemma fields_cons_space {c : Char} (hc : isSpace c = true) (y : Str) :
    fields (c :: y) = fields y := by
  have hstep : splitOnPred isSpace (c :: y) = [] :: splitOnPred isSpace y := by
    conv_lhs => rw [splitOnPred]
    rw [if_pos hc]
  unfold fields
  rw [hstep]
  simp only [List.filter_cons]
  rw [if_neg (by simp)]

lemma fields_spaces_append (pre y : Str) (hpre : ∀ c ∈ pre, isSpace c = true) :
    fields (pre ++ y) = fields y := by
  induction pre with
  | nil => rfl
  | cons c pre ih =>
    rw [List.cons_append, fields_cons_space (hpre c (List.mem_cons_self _ _))]
    exact ih (fun d hd => hpre d (List.mem_cons_of_mem _ hd))

lemma trimSpace_decomp (q : Str) :
    ∃ pre post, q = pre ++ trimSpace q ++ post ∧
      (∀ c ∈ pre, isSpace c = true) ∧ (∀ c ∈ post, isSpace c = true) := by
  have h1 : q = q.takeWhile isSpace ++ q.dropWhile isSpace :=
    (List.takeWhile_append_dropWhile (p := isSpace) (l := q)).symm
  have h2 : (q.dropWhile isSpace).reverse =
      (q.dropWhile isSpace).reverse.takeWhile isSpace ++
        (q.dropWhile isSpace).reverse.dropWhile isSpace :=
    (List.takeWhile_append_dropWhile (p := isSpace)
      (l := (q.dropWhile isSpace).reverse)).symm
  have h3 : q.dropWhile isSpace =
      ((q.dropWhile isSpace).reverse.dropWhile isSpace).reverse ++
        ((q.dropWhile isSpace).reverse.takeWhile isSpace).reverse := by
    calc q.dropWhile isSpace = (q.dropWhile isSpace).reverse.reverse :=
          (List.reverse_reverse _).symm
      _ = ((q.dropWhile isSpace).reverse.takeWhile isSpace ++
            (q.dropWhile isSpace).reverse.dropWhile isSpace).reverse := by rw [← h2]
      _ = ((q.dropWhile isSpace).reverse.dropWhile isSpace).reverse ++
            ((q.dropWhile isSpace).reverse.takeWhile isSpace).reverse :=
          List.reverse_append _ _
  refine ⟨q.takeWhile isSpace,
    ((q.dropWhile isSpace).reverse.takeWhile isSpace).reverse, ?_, ?_, ?_⟩
  · show q = q.takeWhile isSpace ++
      ((q.dropWhile isSpace).reverse.dropWhile isSpace).reverse ++
      ((q.dropWhile isSpace).reverse.takeWhile isSpace).reverse
    conv_lhs => rw [h1, h3]
    rw [List.append_assoc]
  · intro c hc
    exact List.mem_takeWhile_imp hc
  · intro c hc
    rw [List.mem_reverse] at hc
    exact List.mem_takeWhile_imp hc

lemma fields_trimSpace (q : Str) : fields (trimSpace q) = fields q := by
  obtain ⟨pre, post, hq, hpre, hpost⟩ := trimSpace_decomp q
  conv_rhs => rw [hq]
  rw [List.append_assoc, fields_spaces_append pre _ hpre, fields_append_spaces _ post hpost]

lemma keep_space {c : Char} (hc : isSpace c = true) :
    (if allowedChar c then c else ' ') = ' ' := by
  by_cases ha : allowedChar c = true
  · rw [if_pos ha]
    unfold isSpace at hc
    unfold allowedChar at ha
    simp only [decide_eq_true_eq] at hc ha
    rcases hc with rfl | rfl | rfl | rfl | rfl | rfl
    · rfl
    all_goals
      exact absurd ha (by decide)
  · rw [if_neg ha]

lemma fields_map_trim (q : Str) :
    fields ((trimSpace q).map (fun c => if allowedChar c then c else ' ')) =
      fields (q.map (fun c => if allowedChar c then c else ' ')) := by
  obtain ⟨pre, post, hq, hpre, hpost⟩ := trimSpace_decomp q
  conv_rhs => rw [hq]
  rw [List.map_append, List.map_append, List.append_assoc,
    fields_spaces_append _ _ (by
      intro c hc
      rw [List.mem_map] at hc
      obtain ⟨d, hd, rfl⟩ := hc
      rw [keep_space (hpre d hd)]
      rfl),
    fields_append_spaces _ _ (by
      intro c hc
      rw [List.mem_map] at hc
      obtain ⟨d, hd, rfl⟩ := hc
      rw [keep_space (hpost d hd)]
      rfl)]

lemma wrap_filter_eq (ts : List Str) :
    ((ts.map (fun t => if isReserved t then [] else '"' :: (t ++ ['"', '*']))).filter
        (fun t => t ≠ [])) =
      (ts.filter (fun t => isReserved t = false)).map (fun t => '"' :: (t ++ ['"', '*'])) := by
  induction ts with
  | nil => rfl
  | cons t ts ih =>
    simp only [List.map_cons, List.filter_cons]
    by_cases hr : isReserved t = true
    · rw [if_pos hr, if_neg (by simp), if_neg (by simp [hr]), ih]
    · rw [if_neg hr, if_pos (by simp), if_pos (by simp [hr]), List.map_cons, ih]

/-- C5 counterexample: the sanitizer does not lowercase; the query "Ls"
keeps its capital letter, while the claimed sanitizer yields the
lowercased token. -/
theorem sanitizeQuery_no_lowercase :
    sanitizeQuery ("Ls".toList) = ("\x22Ls\x22*".toList) ∧
    claimSanitizeQuery ("Ls".toList) = ("\x22ls\x22*".toList) ∧
    sanitizeQuery ("Ls".toList) ≠ claimSanitizeQuery ("Ls".toList) := by
  refine ⟨by decide, by decide, by decide⟩

/-- C5 (amended): for every query string the sanitizer keeps only
characters in [A-Za-z0-9 _.-], replacing the others with spaces and
preserving letter case, drops the terms whose uppercasing is AND, OR or
NOT, and wraps each remaining token as "token"* joined by single
spaces. -/
theorem sanitizeQuery_spec (q : Str) : sanitizeQuery q = sanitizeSpecForm q := by
  have hterms : sanitizedTerms q =
      (((fields (q.map (fun c => if allowedChar c then c else ' '))).filter
        (fun t => isReserved t = false)).map (fun t => '"' :: (t ++ ['"', '*']))) := by
    unfold sanitizedTerms
    rw [fields_trimSpace, fields_map_trim, wrap_filter_eq]
  unfold sanitizeQuery sanitizeSpecForm
  by_cases h1 : trimSpace q = []
  · rw [if_pos h1]
    have hq : fields (q.map (fun c => if allowedChar c then c else ' ')) = [] := by
      rw [← fields_map_trim, h1]
      rfl
    rw [hq]
    rfl
  · rw [if_neg h1]
    by_cases h2 : trimSpace ((trimSpace q).map (fun c => if allowedChar c then c else ' ')) = []
    · rw [if_pos h2]
      have hq : fields (q.map (fun c => if allowedChar c then c else ' ')) = [] := by
        rw [← fields_map_trim, ← fields_trimSpace, h2]
        rfl
      rw [hq]
      rfl
    · rw [if_neg h2]
      by_cases h3 : sanitizedTerms q = []
      · rw [if_pos h3]
        rw [hterms] at h3
        rw [h3]
        rfl
      · rw [if_neg h3, hterms]

end Search

/-! ### Theorems about the pipeline runner -/

namespace Runner

/-- The manpage loop under no fatal error: successful manpages contribute
their events in order, ConvertErrors only record failures, and the loop
reports no fatal outcome. -/
lemma processManpagesAux_spec (release : Str) (hasIndexer : Bool) :
    ∀ (mps : List ManpageFile) (evs : List StorageEvent) (fails : List Str),
      (∀ mp ∈ mps,
        processSingleManpage release hasIndexer mp ≠ Except.error MpError.fatal) →
      processManpagesAux release hasIndexer mps evs fails =
        (evs ++ mps.flatMap (mpEvents release hasIndexer),
          fails ++ (mps.filter (mpConvertFails release hasIndexer)).map
            (fun mp => mp.relativePath),
          false) := by
  intro mps
  induction mps with
  | nil =>
    intro evs fails _
    simp [processManpagesAux]
  | cons mp rest ih =>
    intro evs fails h
    have hmp : processSingleManpage release hasIndexer mp ≠ Except.error MpError.fatal :=
      h mp (List.mem_cons_self _ _)
    have hrest : ∀ m ∈ rest,
        processSingleManpage release hasIndexer m ≠ Except.error MpError.fatal :=
      fun m hm => h m (List.mem_cons_of_mem _ hm)
    cases hr : processSingleManpage release hasIndexer mp with
    | ok mpEvs =>
      have hstep : processManpagesAux release hasIndexer (mp :: rest) evs fails =
          processManpagesAux release hasIndexer rest (evs ++ mpEvs) fails := by
        conv_lhs => rw [processManpagesAux]
        rw [hr]
      rw [hstep, ih (evs ++ mpEvs) fails hrest]
      simp [mpEvents, mpConvertFails, hr, List.append_assoc]
    | error e =>
      cases e with
      | fatal => exact absurd hr hmp
      | convertError =>
        have hstep : processManpagesAux release hasIndexer (mp :: rest) evs fails =
            processManpagesAux release hasIndexer rest evs (fails ++ [mp.relativePath]) := by
          conv_lhs => rw [processManpagesAux]
          rw [hr]
        rw [hstep, ih evs (fails ++ [mp.relativePath]) hrest]
        simp [mpEvents, mpConvertFails, hr, List.append_assoc]

/-- C1 counterexample: a package with one convert-failing and one succeeding
manpage persists the succeeding artifacts AND writes its cache entry, even
though a failure was recorded — the claim says no cache entry is written. -/
theorem processPackage_cache_written_despite_failure :
    processPackage ("jammy".toList) ("pkg".toList) ("sha".toList) false false true true false
        [⟨("./usr/share/man/man1/bad.1.gz".toList), false, [], none, Except.error ()⟩,
         ⟨("./usr/share/man/man1/ok.1.gz".toList), false, [], none, Except.ok []⟩] =
      ⟨[StorageEvent.writeHTML ("manpages/jammy/man1/ok.1.html".toList),
        StorageEvent.writeGzip ("manpages.gz/jammy/man1/ok.1.gz".toList),
        StorageEvent.cacheWrite ("jammy".toList) ("pkg".toList) ("sha".toList)],
       [("./usr/share/man/man1/bad.1.gz".toList)], false, false⟩ := by
  decide

/-- C1. When a processed (non-skipped, fetched, extracted) package's manpages
produce no fatal error, the run succeeds: each successfully processed
manpage's artifacts are persisted in order, each ConvertError is recorded as
a failure, and a cache entry for the package is written at the very end —
even when some manpages failed to convert. -/
theorem processPackage_convert_failures (release pkgName pkgSha1 : Str)
    (forceProcess cached hasIndexer : Bool) (mps : List ManpageFile)
    (hfatal : ∀ mp ∈ mps,
      processSingleManpage release hasIndexer mp ≠ Except.error MpError.fatal)
    (hskip : forceProcess = true ∨ cached = false)
    (hname : pkgName ≠ []) (hsha : pkgSha1 ≠ []) :
    processPackage release pkgName pkgSha1 forceProcess cached true true hasIndexer mps =
      ⟨mps.flatMap (mpEvents release hasIndexer) ++
          [StorageEvent.cacheWrite release pkgName pkgSha1],
        (mps.filter (mpConvertFails release hasIndexer)).map (fun mp => mp.relativePath),
        false, false⟩ := by
  have hcond : ¬ (¬ forceProcess = true ∧ pkgName ≠ [] ∧ pkgSha1 ≠ [] ∧ cached = true) := by
    rcases hskip with h | h <;> simp [h]
  rw [processPackage, if_neg hcond, if_neg (by simp), if_neg (by simp),
    processManpagesAux_spec release hasIndexer mps [] [] hfatal]
  show (if pkgName ≠ [] ∧ pkgSha1 ≠ [] then _ else _) = _
  rw [if_pos ⟨hname, hsha⟩]
  simp

/-- C1 witness: a concrete package run exercising the theorem. -/
theorem processPackage_convert_failures_witness :
    processPackage ("jammy".toList) ("coreutils".toList) ("abc".toList) false false true true true
        [⟨("./usr/share/man/man1/bad.1.gz".toList), false, [], none, Except.error ()⟩,
         ⟨("./usr/share/man/man1/ls.1.gz".toList), false, [], none, Except.ok []⟩] =
      ⟨[StorageEvent.writeHTML ("manpages/jammy/man1/ls.1.html".toList),
        StorageEvent.indexed ("manpages/jammy/man1/ls.1.html".toList),
        StorageEvent.writeGzip ("manpages.gz/jammy/man1/ls.1.gz".toList),
        StorageEvent.cacheWrite ("jammy".toList) ("coreutils".toList) ("abc".toList)],
       [("./usr/share/man/man1/bad.1.gz".toList)], false, false⟩ :=
  processPackage_convert_failures _ _ _ _ _ _ _ (by decide) (Or.inr rfl)
    (by decide) (by decide)

end Runner

/-! ### Theorems about the sitemap generator -/

namespace Sitemap

/-- The per-release entry loop: failing sections are logged and skipped,
succeeding ones contribute their refs, in order. -/
lemma generateEntries_spec (release : Str) :
    ∀ (entries : List DirEntry) (refs : List Str) (logged : List (Str × Str)),
      generateEntries release entries refs logged =
        (refs ++ entries.flatMap entryRefs,
          logged ++ entries.flatMap (entryLogs release)) := by
  intro entries
  induction entries with
  | nil =>
    intro refs logged
    simp [generateEntries]
  | cons e rest ih =>
    intro refs logged
    cases hd : e.isDir with
    | false =>
      have hstep : generateEntries release (e :: rest) refs logged =
          generateEntries release rest refs logged := by
        conv_lhs => rw [generateEntries]
        rw [if_pos (by simp [hd])]
      rw [hstep, ih refs logged]
      simp [entryRefs, entryLogs, hd]
    | true =>
      cases hs : e.sectionRefs with
      | error u =>
        have hstep : generateEntries release (e :: rest) refs logged =
            generateEntries release rest refs (logged ++ [(release, e.name)]) := by
          conv_lhs => rw [generateEntries]
          rw [if_neg (by simp [hd]), hs]
        rw [hstep, ih refs (logged ++ [(release, e.name)])]
        simp [entryRefs, entryLogs, hd, hs, List.append_assoc]
      | ok r =>
        have hstep : generateEntries release (e :: rest) refs logged =
            generateEntries release rest (refs ++ r) logged := by
          conv_lhs => rw [generateEntries]
          rw [if_neg (by simp [hd]), hs]
        rw [hstep, ih (refs ++ r) logged]
        simp [entryRefs, entryLogs, hd, hs, List.append_assoc]

/-- The release loop when no release directory read fails with an I/O error:
every release contributes its refs and log lines and the index is written. -/
lemma generateReleases_spec (readDir : Str → ReadDirResult) :
    ∀ (releases : List Str) (refs : List Str) (logged : List (Str × Str)),
      (∀ r ∈ releases, readDir r ≠ ReadDirResult.ioError) →
      generateReleases readDir releases refs logged =
        ⟨true, refs ++ releases.flatMap (releaseRefs readDir),
          logged ++ releases.flatMap (releaseLogs readDir), false⟩ := by
  intro releases
  induction releases with
  | nil =>
    intro refs logged _
    simp [generateReleases]
  | cons release rest ih =>
    intro refs logged h
    have hrel : readDir release ≠ ReadDirResult.ioError :=
      h release (List.mem_cons_self _ _)
    have hrest : ∀ r ∈ rest, readDir r ≠ ReadDirResult.ioError :=
      fun r hr => h r (List.mem_cons_of_mem _ hr)
    cases hr : readDir release with
    | notExist =>
      have hstep : generateReleases readDir (release :: rest) refs logged =
          generateReleases readDir rest refs logged := by
        conv_lhs => rw [generateReleases]
        rw [hr]
      rw [hstep, ih refs logged hrest]
      simp [releaseRefs, releaseLogs, hr]
    | ioError => exact absurd hr hrel
    | ok entries =>
      have hstep : generateReleases readDir (release :: rest) refs logged =
          generateReleases readDir rest (refs ++ entries.flatMap entryRefs)
            (logged ++ entries.flatMap (entryLogs release)) := by
        conv_lhs => rw [generateReleases]
        rw [hr]
        show (match generateEntries release entries refs logged with
          | (refs2, logged2) => generateReleases readDir rest refs2 logged2) =
            generateReleases readDir rest (refs ++ entries.flatMap entryRefs)
              (logged ++ entries.flatMap (entryLogs release))
        rw [generateEntries_spec release entries refs logged]
      rw [hstep, ih _ _ hrest]
      simp [releaseRefs, releaseLogs, hr, List.append_assoc]

/-- C9 counterexample: a ReadDir failure (other than not-exist) on a single
release directory aborts Generate — later releases are not walked and the
sitemap index is NOT written, contradicting the claim that per-release
failures are logged and skipped. -/
theorem sitemap_generate_aborts_on_readdir_error :
    generate [("jammy".toList), ("noble".toList)]
        (fun r => if r = ("jammy".toList) then ReadDirResult.ioError
          else ReadDirResult.ok [⟨("man1".toList), true, Except.ok [("a".toList)]⟩]) =
      ⟨false, [("sitemap-static.xml".toList)], [], true⟩ := by
  decide

/-- C9. When no release directory read fails with a (non-not-exist) I/O
error, Generate tolerates all per-section failures: each failing section is
logged and skipped while the other sections' refs are collected, and the
sitemap index is still written, headed by the static sitemap reference. -/
theorem sitemap_generate_failure_tolerance (releases : List Str)
    (readDir : Str → ReadDirResult)
    (h : ∀ r ∈ releases, readDir r ≠ ReadDirResult.ioError) :
    generate releases readDir =
      ⟨true, ("sitemap-static.xml".toList) :: releases.flatMap (releaseRefs readDir),
        releases.flatMap (releaseLogs readDir), false⟩ := by
  rw [generate, generateReleases_spec readDir releases _ _ h]
  simp

/-- C9 witness: one release with a succeeding and a failing section. -/
theorem sitemap_generate_failure_tolerance_witness :
    generate [("jammy".toList)]
        (fun r => if r = ("jammy".toList) then ReadDirResult.ok
            [⟨("man1".toList), true, Except.ok [("r1".toList)]⟩,
             ⟨("man2".toList), true, Except.error ()⟩]
          else ReadDirResult.notExist) =
      ⟨true, [("sitemap-static.xml".toList), ("r1".toList)],
        [(("jammy".toList), ("man2".toList))], false⟩ :=
  sitemap_generate_failure_tolerance _ _ (by decide)

end Sitemap

/-! ### Theorems about the TOC transformer -/

namespace Transform

open GoStr

/-- C6 counterexample: three headings whose texts slugify to a-2, a and a.
The third heading's dedup suffix -2 collides with the first heading's base
slug, so the assigned slugs are NOT pairwise distinct, the TOC emits the
href target a-2 twice, and the body carries two h2 headings with id a-2. -/
theorem bGenerateTOC_slug_collision :
    tocSlugs (fun s => s) ("<h2>a 2</h2><h2>a</h2><h2>a</h2>".toList) =
      [("a-2".toList), ("a".toList), ("a-2".toList)] ∧
    ¬ (tocSlugs (fun s => s) ("<h2>a 2</h2><h2>a</h2><h2>a</h2>".toList)).Nodup ∧
    (bGenerateTOC (fun s => s) ("<h2>a 2</h2><h2>a</h2><h2>a</h2>".toList)).1 =
      ("<h2 id=\"a-2\">a 2</h2><h2 id=\"a\">a</h2><h2 id=\"a-2\">a</h2>".toList) := by
  decide

lemma hasPre_append : ∀ (p z : Str), hasPre (p ++ z) p = true
  | [], _ => by simp [hasPre, List.isPrefixOf]
  | c :: p, z => by
    have ih := hasPre_append p z
    simp only [hasPre, List.cons_append, List.isPrefixOf] at ih ⊢
    simp [ih]

lemma hasPre_take : ∀ (z p : Str), hasPre z p = hasPre (z.take p.length) p
  | _, [] => by simp [hasPre, List.isPrefixOf]
  | [], _ :: _ => by simp [hasPre, List.isPrefixOf]
  | c :: cs, a :: as => by
    have ih := hasPre_take cs as
    simp only [hasPre] at ih ⊢
    simp only [List.length_cons, List.take_succ_cons, List.isPrefixOf]
    rw [ih]

lemma digitChar_ne_quote (d : Nat) : digitChar d ≠ '"' := by
  unfold digitChar
  split_ifs <;> decide

lemma natStrAux_ne_quote : ∀ (fuel n : Nat), ∀ c ∈ natStrAux fuel n, c ≠ '"'
  | 0, n, c, h => by simp [natStrAux] at h
  | fuel + 1, n, c, h => by
    rw [natStrAux] at h
    split_ifs at h
    · rw [List.mem_singleton] at h
      exact h ▸ digitChar_ne_quote n
    · rcases List.mem_append.mp h with h1 | h2
      · exact natStrAux_ne_quote fuel (n / 10) c h1
      · rw [List.mem_singleton] at h2
        exact h2 ▸ digitChar_ne_quote (n % 10)

lemma natStr_ne_quote (n : Nat) : ∀ c ∈ natStr n, c ≠ '"' :=
  natStrAux_ne_quote (n + 1) n

lemma slugDashAux_chars : ∀ (s : Str) (b : Bool) (c : Char), c ∈ slugDashAux b s →
    c = '-' ∨ (('a' ≤ c ∧ c ≤ 'z') ∨ ('0' ≤ c ∧ c ≤ '9'))
  | [], _, c, h => by simp [slugDashAux] at h
  | a :: s, b, c, h => by
    rw [slugDashAux] at h
    split_ifs at h with h1 h2
    · rcases List.mem_cons.mp h with rfl | h3
      · exact Or.inr h1
      · exact slugDashAux_chars s false c h3
    · exact slugDashAux_chars s true c h
    · rcases List.mem_cons.mp h with rfl | h3
      · exact Or.inl rfl
      · exact slugDashAux_chars s true c h3

lemma trimDash_subset {c : Char} {s : Str} (h : c ∈ trimDash s) : c ∈ s := by
  unfold trimDash at h
  rw [ List.mem_reverse] at h
  have h1 : c ∈ (s.dropWhile (fun c => c = '-')).reverse :=
    (List.dropWhile_sublist _).subset h
  rw [ List.mem_reverse] at h1
  exact (List.dropWhile_sublist _).subset h1

lemma slugify_ne_quote (t : Str) : ∀ c ∈ slugify t, c ≠ '"' := by
  intro c h
  unfold slugify at h
  rcases slugDashAux_chars _ _ _ (trimDash_subset h) with rfl | h2
  · decide
  · rcases h2 with ⟨ha, _⟩ | ⟨ha, _⟩ <;>
      (intro hc; subst hc; exact absurd ha (by decide))

lemma baseSlug_ne_quote (u : Str → Str) (m : H2Match) (i : Nat) :
    ∀ c ∈ baseSlug u m i, c ≠ '"' := by
  intro c h
  unfold baseSlug at h
  split_ifs at h
  · rcases List.mem_append.mp h with h1 | h2
    · have hh : ∀ c ∈ ("heading-".toList), c ≠ '"' := by decide
      exact hh c h1
    · exact natStr_ne_quote i c h2
  · exact slugify_ne_quote _ c h

lemma assignSlug_ne_quote (u : Str → Str) (m : H2Match) (i : Nat) (seen : List Str) :
    ∀ c ∈ assignSlug u m i seen, c ≠ '"' := by
  intro c h
  unfold assignSlug at h
  split_ifs at h
  · rcases List.mem_append.mp h with h1 | h2
    · exact baseSlug_ne_quote u m i c h1
    · rcases List.mem_cons.mp h2 with rfl | h3
      · decide
      · exact natStr_ne_quote i c h3
  · exact baseSlug_ne_quote u m i c h

lemma htmlEscape_ne_quote : ∀ (t : Str), ∀ c ∈ htmlEscape t, c ≠ '"'
  | [], c, h => by simp [htmlEscape] at h
  | a :: t, c, h => by
    rw [htmlEscape] at h
    rcases List.mem_append.mp h with h1 | h2
    · split_ifs at h1 with g1 g2 g3 g4 g5
      · have hh : ∀ c ∈ ("&amp;".toList), c ≠ '"' := by decide
        exact hh c h1
      · have hh : ∀ c ∈ ("&#39;".toList), c ≠ '"' := by decide
        exact hh c h1
      · have hh : ∀ c ∈ ("&lt;".toList), c ≠ '"' := by decide
        exact hh c h1
      · have hh : ∀ c ∈ ("&gt;".toList), c ≠ '"' := by decide
        exact hh c h1
      · have hh : ∀ c ∈ ("&#34;".toList), c ≠ '"' := by decide
        exact hh c h1
      · rw [List.mem_singleton] at h1
        exact h1 ▸ g5
    · exact htmlEscape_ne_quote t c h2

lemma extractHrefsAux_nil : ∀ (fuel : Nat), extractHrefsAux fuel [] = []
  | 0 => rfl
  | _ + 1 => rfl

lemma extractHrefsAux_skip (s : Str) : ∀ (chunk : Str),
    (∀ y ∈ chunk.tails, y ≠ [] → hasPre (y ++ s) hrefPat = false) →
    ∀ fuel, extractHrefsAux (chunk.length + fuel) (chunk ++ s) = extractHrefsAux fuel s := by
  intro chunk
  induction chunk with
  | nil => intro _ fuel; simp
  | cons c ch ih =>
    intro h fuel
    have hc : hasPre ((c :: ch) ++ s) hrefPat = false := by
      apply h (c :: ch) _ (by simp)
      rw [List.tails_cons]
      exact List.mem_cons_self _ _
    have ihh := ih (fun y hy hne => h y (by rw [List.tails_cons]; exact List.mem_cons_of_mem _ hy) hne) fuel
    show extractHrefsAux (ch.length + 1 + fuel) (c :: (ch ++ s)) = extractHrefsAux fuel s
    rw [show ch.length + 1 + fuel = (ch.length + fuel) + 1 from by omega]
    conv_lhs => rw [extractHrefsAux]
    have hc2 : hasPre (c :: (ch ++ s)) hrefPat = false := hc
    rw [hc2, if_neg Bool.false_ne_true]
    exact ihh

lemma takeWhile_nq (tail : Str) : ∀ (id2 : Str), (∀ c ∈ id2, c ≠ '"') →
    (id2 ++ '"' :: tail).takeWhile (fun e => e ≠ '"') = id2
  | [], _ => by simp [List.takeWhile_cons]
  | a :: id2, h => by
    have ha : a ≠ '"' := h a (List.mem_cons_self _ _)
    have ih := takeWhile_nq tail id2 (fun c hc => h c (List.mem_cons_of_mem _ hc))
    rw [List.cons_append, List.takeWhile_cons, if_pos (by simp [ha]), ih]

lemma dropWhile_nq (tail : Str) : ∀ (id2 : Str), (∀ c ∈ id2, c ≠ '"') →
    (id2 ++ '"' :: tail).dropWhile (fun e => e ≠ '"') = '"' :: tail
  | [], _ => by simp [List.dropWhile_cons]
  | a :: id2, h => by
    have ha : a ≠ '"' := h a (List.mem_cons_self _ _)
    have ih := dropWhile_nq tail id2 (fun c hc => h c (List.mem_cons_of_mem _ hc))
    rw [List.cons_append, List.dropWhile_cons, if_pos (by simp [ha]), ih]

lemma extractHrefsAux_capture (idv tail : Str) (hq : ∀ c ∈ idv, c ≠ '"') (fuel : Nat) :
    extractHrefsAux (fuel + 1) (hrefPat ++ (idv ++ '"' :: tail)) =
      idv :: extractHrefsAux fuel tail := by
  show extractHrefsAux (fuel + 1)
      ('h' :: 'r' :: 'e' :: 'f' :: '=' :: '"' :: '#' :: (idv ++ '"' :: tail)) =
    idv :: extractHrefsAux fuel tail
  conv_lhs => rw [extractHrefsAux]
  have hp : hasPre ('h' :: 'r' :: 'e' :: 'f' :: '=' :: '"' :: '#' ::
      (idv ++ '"' :: tail)) hrefPat = true :=
    hasPre_append hrefPat (idv ++ '"' :: tail)
  rw [hp, if_pos rfl]
  have hdrop : List.drop 7 ('h' :: 'r' :: 'e' :: 'f' :: '=' :: '"' :: '#' ::
      (idv ++ '"' :: tail)) = idv ++ '"' :: tail := rfl
  rw [hdrop, dropWhile_nq tail idv hq, takeWhile_nq tail idv hq]
  rfl

lemma getLast?_append_right {l1 l2 : Str} (h : l2 ≠ []) :
    (l1 ++ l2).getLast? = l2.getLast? := by
  rw [ List.getLast?_append]
  have hs : l2.getLast?.isSome := List.getLast?_isSome.mpr h
  cases hx : l2.getLast? with
  | none => rw [hx] at hs; simp at hs
  | some b => rfl

lemma noHref_quoteFreeNl (chunk s : Str) (hq : ∀ c ∈ chunk, c ≠ '"')
    (hlast : chunk.getLast? = some '\n') :
    ∀ y ∈ chunk.tails, y ≠ [] → hasPre (y ++ s) hrefPat = false := by
  intro y hy hne
  cases hb : hasPre (y ++ s) hrefPat with
  | false => rfl
  | true =>
    exfalso
    have hpre : hrefPat <+: y ++ s := by
      rw [hasPre] at hb
      exact List.isPrefixOf_iff_prefix.mp hb
    obtain ⟨t, ht⟩ := hpre
    have hsuff : y <:+ chunk := (List.mem_tails _ _).mp hy
    by_cases h6 : 6 ≤ y.length
    · have h1 : (y ++ s).take 6 = y.take 6 := List.take_append_of_le_length h6
      have h2 : (hrefPat ++ t).take 6 = hrefPat.take 6 :=
        List.take_append_of_le_length (by decide)
      rw [ht] at h2
      have h3 : y.take 6 = hrefPat.take 6 := by rw [← h1, h2]
      have h4 : ('"' : Char) ∈ y.take 6 := by rw [h3]; decide
      exact hq _ (hsuff.subset (List.mem_of_mem_take h4)) rfl
    · push_neg at h6
      have hyt : y = hrefPat.take y.length := by
        have h1 : (y ++ s).take y.length = y := List.take_left y s
        have h2 : (hrefPat ++ t).take y.length = hrefPat.take y.length :=
          List.take_append_of_le_length (by simp [hrefPat]; omega)
        rw [ht, h1] at h2
        exact h2
      have hylast : y.getLast? = some '\n' := by
        obtain ⟨pre, hpre2⟩ := hsuff
        rw [← hpre2, getLast?_append_right hne] at hlast
        exact hlast
      have hk1 : 1 ≤ y.length := List.length_pos.mpr hne
      set k := y.length with hk
      interval_cases k <;>
        (rw [hyt] at hylast; exact absurd hylast (by decide))

lemma tocPre_noHref (r : Str) :
    ∀ y ∈ tocPre.tails, y ≠ [] → hasPre (y ++ (hrefPat ++ r)) hrefPat = false := by
  have hdec : ∀ y ∈ tocPre.tails, y ≠ [] →
      hasPre ((y ++ hrefPat).take hrefPat.length) hrefPat = false := by decide
  intro y hy hne
  have h2 : (y ++ (hrefPat ++ r)).take hrefPat.length =
      (y ++ hrefPat).take hrefPat.length := by
    rw [← List.append_assoc]
    exact List.take_append_of_le_length (by simp [hrefPat])
  rw [hasPre_take, h2]
  exact hdec y hy hne

lemma tocLoop_cons_skip (u : Str → Str) (gap : Str) (m : H2Match)
    (rest : List (Str × H2Match)) (i : Nat) (seen : List Str)
    (ht : headingText m = []) :
    tocLoop u ((gap, m) :: rest) i seen =
      (gap ++ origText m ++ (tocLoop u rest (i + 1) seen).1,
        (tocLoop u rest (i + 1) seen).2) := by
  rcases hte : tocLoop u rest (i + 1) seen with ⟨b, es⟩
  conv_lhs => rw [tocLoop]
  rw [if_pos ht, hte]

lemma tocLoop_cons_entry (u : Str → Str) (gap : Str) (m : H2Match)
    (rest : List (Str × H2Match)) (i : Nat) (seen : List Str)
    (ht : ¬ headingText m = []) :
    tocLoop u ((gap, m) :: rest) i seen =
      (gap ++ renderHeading (assignSlug u m i seen) m ++
          (tocLoop u rest (i + 1) (assignSlug u m i seen :: seen)).1,
        (assignSlug u m i seen, htmlEscape (u (headingText m))) ::
          (tocLoop u rest (i + 1) (assignSlug u m i seen :: seen)).2) := by
  rcases hte : tocLoop u rest (i + 1) (assignSlug u m i seen :: seen) with ⟨b, es⟩
  conv_lhs => rw [tocLoop]
  rw [if_neg ht, hte]

lemma tocLoop_entries_nq (u : Str → Str) :
    ∀ (ms : List (Str × H2Match)) (i : Nat) (seen : List Str),
      ∀ e ∈ (tocLoop u ms i seen).2,
        (∀ c ∈ e.1, c ≠ '"') ∧ (∀ c ∈ e.2, c ≠ '"') := by
  intro ms
  induction ms with
  | nil => intro i seen e he; simp [tocLoop] at he
  | cons gm rest ih =>
    rcases gm with ⟨gap, m⟩
    intro i seen e he
    by_cases ht : headingText m = []
    · rw [tocLoop_cons_skip u gap m rest i seen ht] at he
      exact ih (i + 1) seen e he
    · rw [tocLoop_cons_entry u gap m rest i seen ht] at he
      rcases List.mem_cons.mp he with rfl | h2
      · exact ⟨assignSlug_ne_quote u m i seen, htmlEscape_ne_quote _⟩
      · exact ih (i + 1) (assignSlug u m i seen :: seen) e h2

lemma extractHrefs_renderTOC_aux : ∀ (es : List (Str × Str)),
    (∀ e ∈ es, (∀ c ∈ e.1, c ≠ '"') ∧ (∀ c ∈ e.2, c ≠ '"')) →
    ∀ fuel, extractHrefsAux ((renderTOC es).length + fuel) (renderTOC es) =
      es.map (fun e => e.1) := by
  intro es
  induction es with
  | nil =>
    intro _ fuel
    simp [renderTOC, extractHrefsAux_nil]
  | cons e rest ih =>
    intro h fuel
    have he := h e (List.mem_cons_self _ _)
    have hrest := fun e2 he2 => h e2 (List.mem_cons_of_mem _ he2)
    have hL : (renderTOC (e :: rest)).length =
        tocPre.length + (hrefPat.length + (e.1.length +
          (2 + (e.2.length + (tocPost.length + (renderTOC rest).length))))) := by
      simp only [renderTOC, List.flatMap_cons, renderTOCEntry, List.length_append]
      simp [tocMid]
      omega
    have hdecomp : renderTOC (e :: rest) =
        tocPre ++ (hrefPat ++ (e.1 ++ '"' ::
          ('>' :: (e.2 ++ (tocPost ++ renderTOC rest))))) := by
      show renderTOCEntry e ++ renderTOC rest = _
      simp [renderTOCEntry, tocMid, List.append_assoc]
    rw [show (renderTOC (e :: rest)).length + fuel =
        tocPre.length + (hrefPat.length + (e.1.length +
          (2 + (e.2.length + (tocPost.length + ((renderTOC rest).length + fuel))))))
      from by rw [hL]; omega]
    rw [hdecomp]
    rw [extractHrefsAux_skip _ tocPre (tocPre_noHref _) _]
    rw [show hrefPat.length + (e.1.length +
          (2 + (e.2.length + (tocPost.length + ((renderTOC rest).length + fuel))))) =
        (('>' :: (e.2 ++ tocPost)).length +
          ((renderTOC rest).length + (fuel + 7 + e.1.length))) + 1
      from by
        have h7 : hrefPat.length = 7 := rfl
        simp only [List.length_cons, List.length_append]
        omega]
    rw [extractHrefsAux_capture e.1 _ he.1 _]
    have hq2 : ∀ c ∈ '>' :: (e.2 ++ tocPost), c ≠ '"' := by
      intro c hc
      rcases List.mem_cons.mp hc with rfl | h2
      · decide
      · rcases List.mem_append.mp h2 with h3 | h4
        · exact he.2 c h3
        · have hh : ∀ c ∈ tocPost, c ≠ '"' := by decide
          exact hh c h4
    have hlast2 : ('>' :: (e.2 ++ tocPost)).getLast? = some '\n' := by
      rw [show '>' :: (e.2 ++ tocPost) = ('>' :: e.2) ++ tocPost from by simp]
      rw [getLast?_append_right (by decide)]
      decide
    have hstep : '>' :: (e.2 ++ (tocPost ++ renderTOC rest)) =
        ('>' :: (e.2 ++ tocPost)) ++ renderTOC rest := by
      simp [List.append_assoc]
    rw [hstep]
    rw [extractHrefsAux_skip _ _ (noHref_quoteFreeNl _ _ hq2 hlast2) _]
    rw [ih hrest (fuel + 7 + e.1.length)]
    simp

lemma infix_append_left {l b : Str} (a : Str) (h : l <:+: b) : l <:+: a ++ b := by
  obtain ⟨u2, v, hv⟩ := h
  exact ⟨a ++ u2, v, by rw [← hv]; simp [List.append_assoc]⟩

lemma infix_append_right {l a : Str} (t : Str) (h : l <:+: a) : l <:+: a ++ t := by
  obtain ⟨u2, v, hv⟩ := h
  exact ⟨u2, v ++ t, by rw [← hv]; simp [List.append_assoc]⟩

lemma tocLoop_body_ids (u : Str → Str) :
    ∀ (ms : List (Str × H2Match)) (i : Nat) (seen : List Str),
      ∀ s ∈ ((tocLoop u ms i seen).2).map (fun e => e.1),
        (h2IdPre ++ s ++ ['"']) <:+: (tocLoop u ms i seen).1 := by
  intro ms
  induction ms with
  | nil => intro i seen s hs; simp [tocLoop] at hs
  | cons gm rest ih =>
    rcases gm with ⟨gap, m⟩
    intro i seen s hs
    by_cases ht : headingText m = []
    · rw [tocLoop_cons_skip u gap m rest i seen ht] at hs ⊢
      exact infix_append_left _ (ih (i + 1) seen s hs)
    · rw [tocLoop_cons_entry u gap m rest i seen ht] at hs ⊢
      rw [List.map_cons] at hs
      rcases List.mem_cons.mp hs with rfl | h2
      · refine ⟨gap, removeIdAttrs m.attrs ++
          '>' :: rewritePermalinks (assignSlug u m i seen) m.inner ++
            ("</h2>".toList) ++
            (tocLoop u rest (i + 1) (assignSlug u m i seen :: seen)).1, ?_⟩
        simp [renderHeading, h2IdPre, List.append_assoc]
      · exact infix_append_left _ (ih (i + 1) (assignSlug u m i seen :: seen) s h2)

/-- C6. For every unescape oracle and every HTML input, the href targets
extracted from the generated TOC are exactly the slugs assigned to the h2
headings, in order (empty slugs become heading-i, already-seen slugs get -i
appended), and every assigned slug appears as the id attribute of an h2
opening tag in the transformed body.  The assigned slugs are, however, NOT
always pairwise distinct: the -i dedup suffix is not itself re-checked
against the seen set, so a TOC href can resolve to more than one heading
(see the counterexample). -/
theorem bGenerateTOC_hrefs_and_ids (unescape : Str → Str) (html : Str) :
    extractHrefs (bGenerateTOC unescape html).2 = tocSlugs unescape html ∧
    ∀ s ∈ tocSlugs unescape html,
      (h2IdPre ++ s ++ ['"']) <:+: (bGenerateTOC unescape html).1 := by
  rcases hs : scanH2 html with ⟨ms, tail⟩
  cases ms with
  | nil =>
    have hb : bGenerateTOC unescape html = (html, []) := by
      rw [bGenerateTOC, hs]
    have hslugs : tocSlugs unescape html = [] := by
      rw [tocSlugs, hs]
      simp [tocLoop]
    constructor
    · rw [hb, hslugs]
      rfl
    · intro s hsm
      rw [hslugs] at hsm
      simp at hsm
  | cons gm rest =>
    have hb : bGenerateTOC unescape html =
        ((tocLoop unescape (gm :: rest) 0 []).1 ++ tail,
          renderTOC ((tocLoop unescape (gm :: rest) 0 []).2)) := by
      rcases htl : tocLoop unescape (gm :: rest) 0 [] with ⟨b, es⟩
      rw [bGenerateTOC, hs]
      show (match tocLoop unescape (gm :: rest) 0 [] with
        | (b2, es2) => (b2 ++ tail, renderTOC es2)) =
          ((b, es).1 ++ tail, renderTOC (b, es).2)
      rw [htl]
    have hslugs : tocSlugs unescape html =
        ((tocLoop unescape (gm :: rest) 0 []).2).map (fun e => e.1) := by
      rw [tocSlugs, hs]
    constructor
    · rw [hb, hslugs]
      show extractHrefs (renderTOC ((tocLoop unescape (gm :: rest) 0 []).2)) = _
      rw [extractHrefs]
      rw [show (renderTOC ((tocLoop unescape (gm :: rest) 0 []).2)).length =
          (renderTOC ((tocLoop unescape (gm :: rest) 0 []).2)).length + 0 from by omega]
      exact extractHrefs_renderTOC_aux _ (tocLoop_entries_nq unescape _ 0 []) 0
    · intro s hsm
      rw [hslugs] at hsm
      rw [hb]
      exact infix_append_right tail (tocLoop_body_ids unescape _ 0 [] s hsm)

/-- C6 witness: the theorem at a concrete two-heading fragment. -/
theorem bGenerateTOC_hrefs_and_ids_witness :
    extractHrefs (bGenerateTOC (fun s => s) ("<h2>One</h2><h2>Two</h2>".toList)).2 =
      tocSlugs (fun s => s) ("<h2>One</h2><h2>Two</h2>".toList) ∧
    ∀ s ∈ tocSlugs (fun s => s) ("<h2>One</h2><h2>Two</h2>".toList),
      (h2IdPre ++ s ++ ['"']) <:+:
        (bGenerateTOC (fun s => s) ("<h2>One</h2><h2>Two</h2>".toList)).1 :=
  bGenerateTOC_hrefs_and_ids (fun s => s) ("<h2>One</h2><h2>Two</h2>".toList)

end Transform
